/-
  Verification of the zo-memory-system retrieval and decay engine
  (src/scripts/memory.ts) against its natural-language specification.

  The TypeScript core is shallowly embedded here:
  * numbers are modelled by ℚ (scores, ranks, similarities) and ℤ
    (timestamps); the floating-point arithmetic of the source is modelled
    exactly over ℚ/ℝ;
  * the SQLite database is modelled by explicit lists of rows, and the
    text-search engine by an oracle `String → List _` giving the rows a
    MATCH query returns;
  * network calls (Ollama embedding / HyDE generation) are modelled by
    explicit outcome values (error / non-success status / parsed body);
  * JavaScript truthiness on numbers (`0`, `NaN`, `undefined`, `null`,
    `""` are falsy) is made explicit at each use site.
-/
import Mathlib

/-! ## Data model (src/scripts/memory.ts, `MemoryEntry`, lines 36-53) -/

/-- A fact row.  `importance`/`confidence` are REAL columns, modelled by ℚ;
`createdAt` is a unix ms timestamp, `expiresAt`/`lastAccessed` unix seconds
(`expires_at` NULL is `none`).  The optional `embedding`/`metadata` fields
play no part in the claims and are omitted. -/
structure MemoryEntry where
  id : String
  persona : String
  entity : String
  key : Option String
  value : String
  text : String
  category : String
  decayClass : String
  importance : ℚ
  source : String
  createdAt : ℤ
  expiresAt : Option ℤ
  lastAccessed : ℤ
  confidence : ℚ
  deriving Repr, DecidableEq

/-! ## Decay-class TTL table (lines 24-31)

`TTL_DEFAULTS` is a JS record with five keys; indexing it with an unknown
string yields `undefined`.  We model the lookup result as
`Option (Option ℤ)`: `none` = key absent (`undefined`), `some none` = key
present with value `null`, `some (some t)` = key present with number `t`. -/

def TTL_DEFAULTS (decayClass : String) : Option (Option ℤ) :=
  if decayClass = "permanent" then some none
  else if decayClass = "stable" then some (some (90 * 24 * 3600))
  else if decayClass = "active" then some (some (14 * 24 * 3600))
  else if decayClass = "session" then some (some (24 * 3600))
  else if decayClass = "checkpoint" then some (some (4 * 3600))
  else none

/-- JS truthiness of `TTL_DEFAULTS[decayClass]`: `undefined`, `null` and `0`
are falsy, any other number is truthy. -/
def ttlTruthy : Option (Option ℤ) → Bool
  | some (some t) => t != 0
  | _ => false

/-- `TTL_DEFAULTS[decayClass] ? nowSec + TTL_DEFAULTS[decayClass]! : null`
(line 159). -/
def computeExpiresAt (decayClass : String) (nowSec : ℤ) : Option ℤ :=
  match TTL_DEFAULTS decayClass with
  | some (some t) => if t != 0 then some (nowSec + t) else none
  | _ => none

/-! ## Embedding service (`getEmbedding`, lines 83-105) -/

/-- Outcome of the `fetch` to the embedding provider.  `err` = the fetch or
JSON parse threw; `notOk` = non-2xx status; `ok r` = parsed body whose
`embedding` field is `r` (`none` when the field is absent/undefined). -/
inductive EmbedOutcome where
  | err : EmbedOutcome
  | notOk : EmbedOutcome
  | ok : Option (List ℚ) → EmbedOutcome
  deriving Repr, DecidableEq

/-- `getEmbedding`: returns `null` on a thrown error or non-success status,
otherwise `data.embedding` (which may itself be absent). -/
def getEmbedding : EmbedOutcome → Option (List ℚ)
  | .err => none
  | .notOk => none
  | .ok e => e

/-! ## HyDE query expansion (`hydeExpand`, lines 107-137) -/

/-- Outcome of the `fetch` to the expansion provider: thrown error,
non-success status, or parsed body whose `response` field is `r`
(`none` when absent). -/
inductive HydeOutcome where
  | err : HydeOutcome
  | notOk : HydeOutcome
  | ok : Option String → HydeOutcome
  deriving Repr, DecidableEq

/-- JS `String.prototype.trim`: strip whitespace from both ends.  (JS
strips the `\s` class where `Char.isWhitespace` covers ASCII whitespace;
they agree on ordinary text.) -/
def jsTrim (s : String) : String :=
  String.mk
    (((s.data.dropWhile Char.isWhitespace).reverse.dropWhile
        Char.isWhitespace).reverse)

/-- `hydeExpand` (lines 107-137): on any failure return `[query]`; on a
successful response take `expanded = data.response?.trim()` and return
`[query, expanded]` when `expanded` is truthy (non-empty) and longer than
10 characters, else `[query]`. -/
def hydeExpand (query : String) : HydeOutcome → List String
  | .err => [query]
  | .notOk => [query]
  | .ok response =>
    match response with
    | none => [query]
    | some r =>
      let expanded := jsTrim r
      if expanded != "" && expanded.length > 10 then [query, expanded]
      else [query]

/-! ## Store (`storeWithEmbedding`, lines 152-202) -/

/-- The argument of `storeWithEmbedding`:
`Omit<MemoryEntry, "id" | "createdAt" | "expiresAt" | "lastAccessed">`. -/
structure NewEntry where
  persona : String
  entity : String
  key : Option String
  value : String
  text : String
  category : String
  decayClass : String
  importance : ℚ
  source : String
  confidence : ℚ
  deriving Repr, DecidableEq

/-- The persistent store: the `facts` table and the `fact_embeddings`
table (fact id ↦ vector). -/
structure StoreState where
  facts : List MemoryEntry
  embeddings : List (String × List ℚ)
  deriving Repr, DecidableEq

/-- `entry.text || defaultText` (lines 172 and 185):
`${entry.entity} ${entry.key || ""}: ${entry.value}`. -/
def defaultText (entry : NewEntry) : String :=
  entry.entity ++ " " ++ (entry.key.getD "") ++ ": " ++ entry.value

/-- The fact row inserted by `storeWithEmbedding` (lines 162-182).
`now` is `Date.now()` in ms; `nowSec = Math.floor(now / 1000)`.
JS string falsiness: `entry.decayClass || "stable"` and
`entry.text || default` treat the empty string as absent. -/
def insertedFact (entry : NewEntry) (id : String) (now : ℤ) : MemoryEntry :=
  let nowSec := Int.fdiv now 1000
  let decayClass := if entry.decayClass = "" then "stable" else entry.decayClass
  { id := id
    persona := entry.persona
    entity := entry.entity
    key := entry.key
    value := entry.value
    text := if entry.text = "" then defaultText entry else entry.text
    category := entry.category
    decayClass := decayClass
    importance := entry.importance
    source := entry.source
    createdAt := now
    expiresAt := computeExpiresAt decayClass nowSec
    lastAccessed := nowSec
    confidence := entry.confidence }

/-- `storeWithEmbedding` (lines 152-202): insert the fact row; then, only
if the embedding call produced a value, insert an embedding row; finally
return `{...entry, id, createdAt, expiresAt, lastAccessed}` (note the
returned object spreads the *original* entry fields).  The embedding
provider's outcome is passed explicitly. -/
def storeWithEmbedding (st : StoreState) (entry : NewEntry) (id : String)
    (now : ℤ) (embedOut : EmbedOutcome) : StoreState × MemoryEntry :=
  let nowSec := Int.fdiv now 1000
  let fact := insertedFact entry id now
  let st1 : StoreState := { st with facts := st.facts ++ [fact] }
  let embedding := getEmbedding embedOut
  let st2 : StoreState :=
    match embedding with
    | some emb => { st1 with embeddings := st1.embeddings ++ [(id, emb)] }
    | none => st1
  (st2,
   { id := id
     persona := entry.persona
     entity := entry.entity
     key := entry.key
     value := entry.value
     text := entry.text
     category := entry.category
     decayClass := entry.decayClass
     importance := entry.importance
     source := entry.source
     createdAt := now
     expiresAt := fact.expiresAt
     lastAccessed := nowSec
     confidence := entry.confidence })

/-! ## CLI store path (`main`, `case "store"`, lines 518-539)

The CLI builds the entry with `decayClass: (flags.decay as DecayClass) ||
"stable"`; a missing or empty `--decay` flag becomes `"stable"` before
`storeWithEmbedding` ever sees it, and any other string passes through
unvalidated. -/

def cliStoreEntry (entity value : String) (key : Option String)
    (text persona category decay source : String) (importance : ℚ) : NewEntry :=
  { persona := if persona = "" then "shared" else persona
    entity := entity
    key := key
    value := value
    text := if text = "" then entity ++ " " ++ (key.getD "") ++ ": " ++ value else text
    category := if category = "" then "fact" else category
    decayClass := if decay = "" then "stable" else decay
    importance := importance
    source := if source = "" then "cli" else source
    confidence := 1 }

/-! ## Pruning (documented command, not present in src/scripts/memory.ts) -/

/-- Whether a fact is expired at `now` (seconds): non-null `expiresAt < now`. -/
def isExpired (f : MemoryEntry) (now : ℤ) : Bool :=
  match f.expiresAt with
  | none => false
  | some e => e < now

/-- Modelled from the spec: `prune()` is listed in the CLI surface (§6) and
in SKILL.md but has no implementation in src/scripts/memory.ts; per spec
§4.6 it deletes all facts with non-null `expiresAt < now`, leaving every
other row untouched. -/
def prune (facts : List MemoryEntry) (now : ℤ) : List MemoryEntry :=
  facts.filter (fun f => !isExpired f now)

/-! ## Lexical query construction (lines 220-227 and 348-355) -/

/-- ASCII codes of the characters stripped by `replace(/['"]/g, "")`:
the apostrophe (39) and the double quote (34). -/
def isQuoteChar (c : Char) : Bool := c.toNat == 39 || c.toNat == 34

def stripQuotes (s : String) : String :=
  String.mk (s.data.filter (fun c => !isQuoteChar c))

/-- Split a character list at every whitespace character.  This cuts at
each single separator where the JS regex `/\s+/` cuts at runs, but the
extra empty fragments produced between consecutive separators are removed
by the `length > 1` filter applied right after, so the surviving token
list is identical.  (JS `\s` covers a few exotic Unicode spaces beyond
`Char.isWhitespace`; they agree on ordinary text.) -/
def splitWsAux : List Char → List Char → List String
  | [], acc => [String.mk acc.reverse]
  | c :: cs, acc =>
      if c.isWhitespace then String.mk acc.reverse :: splitWsAux cs []
      else splitWsAux cs (c :: acc)

/-- The tokens surviving `.split(/\s+/).filter((w) => w.length > 1)`. -/
def queryTokens (query : String) : List String :=
  (splitWsAux (stripQuotes query).data []).filter (fun w => w.length > 1)

/-- `.join(" OR ")`. -/
def joinOr : List String → String
  | [] => ""
  | [w] => w
  | w :: ws => w ++ " OR " ++ joinOr ws

/-- `safeQuery`: each surviving token individually double-quoted, joined
with `" OR "`. -/
def buildSafeQuery (query : String) : String :=
  joinOr ((queryTokens query).map (fun w => "\"" ++ w ++ "\""))

/-! ## FTS-only search (`ftsSearch`, lines 343-376)

The database is an oracle `dbRows : String → List (MemoryEntry × ℚ)`
returning, for a MATCH query string, the joined rows `(fact, rank)` the
SQL statement produces (already filtered to unexpired rows and the
persona, ordered by rank ascending, limited). -/

/-- `rows.length > 0 ? Math.min(...rows.map((r) => r.rank)) : 0`
(line 368). -/
def minRankOf (rows : List (MemoryEntry × ℚ)) : ℚ :=
  ((rows.map Prod.snd).min?).getD 0

/-- `rows.length > 0 ? Math.max(...rows.map((r) => r.rank)) : 1`
(line 369). -/
def maxRankOf (rows : List (MemoryEntry × ℚ)) : ℚ :=
  ((rows.map Prod.snd).max?).getD 1

/-- `const range = maxRank - minRank || 1` (line 370). -/
def rangeOf (rows : List (MemoryEntry × ℚ)) : ℚ :=
  if maxRankOf rows - minRankOf rows ≠ 0 then maxRankOf rows - minRankOf rows
  else 1

/-- Min–max normalization of `ftsSearch` (lines 368-375): each row's
exposed score is `1 - (rank - minRank) / range || 0.8` — the normalized
value, except that a (falsy) normalized value of 0 is replaced by 0.8. -/
def scoreRows (rows : List (MemoryEntry × ℚ)) : List (MemoryEntry × ℚ) :=
  rows.map (fun r =>
    let s : ℚ := 1 - (r.2 - minRankOf rows) / rangeOf rows
    (r.1, if s ≠ 0 then s else 0.8))

/-- `ftsSearch`: build the safe query; an empty one returns no results;
otherwise fetch the rows and expose the min–max normalized score. -/
def ftsSearch (dbRows : String → List (MemoryEntry × ℚ)) (query : String) :
    List (MemoryEntry × ℚ) :=
  let safeQuery := buildSafeQuery query
  if safeQuery = "" then []
  else scoreRows (dbRows safeQuery)

/-! ## Association-list maps with JS `Map` semantics

`Map.set` keeps the insertion position of an existing key and appends new
keys; iteration order is insertion order. -/

def mapSet {α : Type} (m : List (String × α)) (k : String) (v : α) :
    List (String × α) :=
  if (m.map Prod.fst).contains k then
    m.map (fun p => if p.1 = k then (k, v) else p)
  else m ++ [(k, v)]

/-! ## Hybrid search (`hybridSearch`, lines 205-340) -/

/-- A lexical candidate: the fact and its native FTS rank (rows are joined
with the query variant that produced them in the source only to build a
provenance label, which does not influence scores and is omitted). -/
structure FtsHit where
  entry : MemoryEntry
  rank : ℚ
  deriving Repr, DecidableEq

/-- A vector candidate: the fact and its cosine similarity to the query
embedding (the similarity itself is computed over floats in the source;
here it enters the pipeline as a given rational). -/
structure VecHit where
  entry : MemoryEntry
  similarity : ℚ
  deriving Repr, DecidableEq

/-- One iteration of the FTS collection loop (lines 240-250): keep the
row for its id unless an entry with a strictly lower (better) rank is
already recorded. -/
def addFtsRow (m : List (String × FtsHit)) (row : FtsHit) :
    List (String × FtsHit) :=
  match m.lookup row.entry.id with
  | some existing =>
      if row.rank < existing.rank then mapSet m row.entry.id row else m
  | none => mapSet m row.entry.id row

/-- The rows fetched for one query variant (lines 219-238): an empty safe
query is skipped (`continue`) without touching the database. -/
def variantRows (dbRows : String → List FtsHit) (qv : String) : List FtsHit :=
  let safeQuery := buildSafeQuery qv
  if safeQuery = "" then [] else dbRows safeQuery

/-- `ftsResults`: fold every variant's rows into the map, best rank kept. -/
def collectFts (dbRows : String → List FtsHit) (variants : List String) :
    List (String × FtsHit) :=
  variants.foldl (fun m qv => (variantRows dbRows qv).foldl addFtsRow m) []

/-- `vectorResults` (lines 253-281): every cached-embedding row whose
similarity exceeds the 0.5 threshold, keyed by fact id.  `embRows` models
the unexpired persona-filtered embedding rows joined with their facts and
already carrying the computed similarity; when the query embedding failed
the caller passes `[]` (the whole block is skipped). -/
def collectVec (embRows : List VecHit) : List (String × VecHit) :=
  embRows.foldl
    (fun m row =>
      if row.similarity > 0.5 then mapSet m row.entry.id row else m) []

/-- An entry of the `scores` map (lines 284-312): the fact, its 1-based
position in the lexical-sorted order (`ftsRank`), and its 1-based position
in the similarity-sorted order (the source stores it in a field named
`vecScore`). -/
structure ScoreAcc where
  entry : MemoryEntry
  ftsRank : Option ℕ
  vecScore : Option ℕ
  deriving Repr, DecidableEq

/-- `Array.from(ftsResults.entries()).sort((a, b) => a[1].rank - b[1].rank)`:
a stable ascending sort by rank (line 290). -/
def sortedFtsList (ftsResults : List (String × FtsHit)) :
    List (String × FtsHit) :=
  ftsResults.mergeSort (fun a b => a.2.rank ≤ b.2.rank)

/-- `Array.from(vectorResults.entries()).sort((a, b) => b[1].similarity -
a[1].similarity)`: a stable descending sort by similarity (line 303). -/
def sortedVecList (vecResults : List (String × VecHit)) :
    List (String × VecHit) :=
  vecResults.mergeSort (fun a b => b.2.similarity ≤ a.2.similarity)

/-- The FTS loop of lines 289-299: walk the sorted list with a 1-based
position counter, updating an existing score entry or appending a new
one. -/
def addFtsScores (init : List (String × ScoreAcc))
    (ranked : List (ℕ × (String × FtsHit))) : List (String × ScoreAcc) :=
  ranked.foldl
    (fun m p =>
      match m.lookup p.2.1 with
      | some acc => mapSet m p.2.1 { acc with ftsRank := some p.1 }
      | none => m ++ [(p.2.1, ⟨p.2.2.entry, some p.1, none⟩)])
    init

/-- The vector loop of lines 302-312, likewise with a 1-based counter. -/
def addVecScores (init : List (String × ScoreAcc))
    (ranked : List (ℕ × (String × VecHit))) : List (String × ScoreAcc) :=
  ranked.foldl
    (fun m p =>
      match m.lookup p.2.1 with
      | some acc => mapSet m p.2.1 { acc with vecScore := some p.1 }
      | none => m ++ [(p.2.1, ⟨p.2.2.entry, none, some p.1⟩)])
    init

/-- Freshness (lines 323-327): 1 when `expiresAt` is falsy (null — or the
unreachable literal 0); otherwise
`Math.max(0, Math.min(1, (expiresAt - nowSec) / (14 * 24 * 3600)))`. -/
def freshnessOf (expiresAt : Option ℤ) (nowSec : ℤ) : ℚ :=
  match expiresAt with
  | some e =>
      if e ≠ 0 then
        max 0 (min 1 (((e : ℚ) - (nowSec : ℚ)) / (14 * 24 * 3600)))
      else 1
  | none => 1

/-- The scoring loop (lines 317-336): RRF with `k = 60` over whichever
ranks are present (positions are ≥ 1, hence always truthy), plus
freshness and confidence contributions. -/
def finalScores (scores : List (String × ScoreAcc)) (nowSec : ℤ) :
    List (MemoryEntry × ℚ) :=
  scores.map (fun p =>
    let rrfScore : ℚ :=
      (match p.2.ftsRank with
       | some r => 1 / (60 + (r : ℚ))
       | none => 0) +
      (match p.2.vecScore with
       | some r => 1 / (60 + (r : ℚ))
       | none => 0)
    let freshness := freshnessOf p.2.entry.expiresAt nowSec
    (p.2.entry, rrfScore * 0.7 + freshness * 0.2 + p.2.entry.confidence * 0.1))

/-- `finalResults.sort((a, b) => b.score - a.score)` (line 338): stable
descending sort by composite score. -/
def sortFinal (results : List (MemoryEntry × ℚ)) : List (MemoryEntry × ℚ) :=
  results.mergeSort (fun a b => b.2 ≤ a.2)

/-- `const queryVariants = useHyde ? await hydeExpand(query) : [query]`
(line 214). -/
def queryVariantsOf (query : String) (useHyde : Bool) (o : HydeOutcome) :
    List String :=
  if useHyde then hydeExpand query o else [query]

/-- The fully assembled `scores` map of lines 284-312: the lexical map
sorted ascending by rank and walked with the 1-based `ftsPos` counter,
then the vector map sorted descending by similarity and walked with the
1-based `vecPos` counter. -/
def scoresOf (dbRows : String → List FtsHit) (variants : List String)
    (embRows : List VecHit) : List (String × ScoreAcc) :=
  addVecScores
    (addFtsScores [] ((sortedFtsList (collectFts dbRows variants)).enumFrom 1))
    ((sortedVecList (collectVec embRows)).enumFrom 1)

/-- `hybridSearch` (lines 205-340): expand the query (HyDE outcome given
explicitly; `useHyde = false` skips the call), collect the lexical
candidates over all variants and the vector candidates, fuse with RRF,
score, sort descending and truncate to the limit. -/
def hybridSearch (dbRows : String → List FtsHit) (embRows : List VecHit)
    (query : String) (useHyde : Bool) (hydeOut : HydeOutcome)
    (nowSec : ℤ) (limit : ℕ) : List (MemoryEntry × ℚ) :=
  (sortFinal (finalScores
      (scoresOf dbRows (queryVariantsOf query useHyde hydeOut) embRows)
      nowSec)).take limit

/-! ## Spec-side rank positions

The claims speak of "the 1-based position in lexical-sorted order" /
"similarity-sorted order"; these compute that position directly. -/

/-- 0-based index of the first occurrence of an id in a key list. -/
def idxOf? (k : String) : List String → Option ℕ
  | [] => none
  | k' :: ks => if k' = k then some 0 else (idxOf? k ks).map (· + 1)

/-- 1-based position of an id in a list of keys. -/
def posOf (ids : List String) (id : String) : Option ℕ :=
  (idxOf? id ids).map (· + 1)

/-- reciprocal-rank contribution of one optional rank, `k = 60`. -/
def rrfTerm : Option ℕ → ℚ
  | some r => 1 / (60 + (r : ℚ))
  | none => 0

/-- Freshness exactly as the claims word it: `clamp((expiresAt - now) /
(14 days), 0, 1)`, or 1.0 when `expiresAt` is null. -/
def specFreshness (expiresAt : Option ℤ) (nowSec : ℤ) : ℚ :=
  match expiresAt with
  | some e => max 0 (min 1 (((e : ℚ) - (nowSec : ℚ)) / (14 * 24 * 3600)))
  | none => 1

/-! ## Cosine similarity (`cosineSimilarity`, lines 139-149)

The source loops `i` over `0 .. a.length-1` accumulating
`dot += a[i]*b[i]`, `normA += a[i]*a[i]`, `normB += b[i]*b[i]` and returns
`dot / (Math.sqrt(normA) * Math.sqrt(normB))`.  For the equal-length
vectors the claims quantify over, the three accumulators are the pairwise
dot products below (for unequal lengths the source reads past the end of
`b` and produces NaN, which has no counterpart in ℝ). -/

def dotProduct (a b : List ℝ) : ℝ := (a.zipWith (fun x y => x * y) b).sum

noncomputable def cosineSimilarity (a b : List ℝ) : ℝ :=
  dotProduct a b / (Real.sqrt (dotProduct a a) * Real.sqrt (dotProduct b b))

/-! ## The lexical score actually exposed by `ftsSearch`

What `1 - (rank - minRank) / range || 0.8` computes for a row of the
result set: the min–max normalized rank — `1` when the rank spread is
zero (in particular for a single candidate), and `0.8` in place of the
normalized value `0` that the worst-ranked row of a spread set would
get. -/
def lexNorm (minR maxR rank : ℚ) : ℚ :=
  if maxR - minR = 0 then 1
  else if rank = maxR then 0.8
  else 1 - (rank - minR) / (maxR - minR)

/-! ## Concrete fixtures for counterexamples and witnesses -/

/-- A fact with confidence 1 and no expiry. -/
def factA : MemoryEntry :=
  ⟨"idA", "shared", "user", some "name", "Alice", "user name: Alice",
    "fact", "stable", 1, "cli", 0, none, 0, 1⟩

/-- A second fact with confidence 1 and no expiry. -/
def factB : MemoryEntry :=
  ⟨"idB", "shared", "user", some "city", "Paris", "user city: Paris",
    "fact", "stable", 1, "cli", 0, none, 0, 1⟩

/-- A fact with confidence 0 and no expiry. -/
def factZ : MemoryEntry :=
  ⟨"idZ", "shared", "user", some "tmp", "x", "user tmp: x",
    "fact", "stable", 1, "cli", 0, none, 0, 0⟩

/-- A database whose every MATCH returns a single row. -/
def dbSingle : String → List (MemoryEntry × ℚ) := fun _ => [(factA, -2)]

/-- A database whose every MATCH returns two rows with distinct ranks. -/
def dbPair : String → List (MemoryEntry × ℚ) := fun _ => [(factA, -3), (factB, -1)]

/-- A database whose every MATCH returns one zero-confidence row. -/
def dbZeroConf : String → List (MemoryEntry × ℚ) := fun _ => [(factZ, -2)]

/-- A hybrid-search lexical oracle returning a single hit. -/
def hybridDbSingle : String → List FtsHit := fun _ => [⟨factA, -2⟩]

/-- A single vector hit above the 0.5 similarity floor. -/
def vecSingle : List VecHit := [⟨factA, 0.9⟩]

/-! ## Helper lemmas: store -/

lemma storeWithEmbedding_facts (st : StoreState) (entry : NewEntry)
    (id : String) (now : ℤ) (eo : EmbedOutcome) :
    (storeWithEmbedding st entry id now eo).1.facts
      = st.facts ++ [insertedFact entry id now] := by
  unfold storeWithEmbedding
  cases getEmbedding eo <;> rfl

lemma storeWithEmbedding_embeddings_of_none (st : StoreState) (entry : NewEntry)
    (id : String) (now : ℤ) (eo : EmbedOutcome) (h : getEmbedding eo = none) :
    (storeWithEmbedding st entry id now eo).1.embeddings = st.embeddings := by
  unfold storeWithEmbedding
  rw [h]

lemma storeWithEmbedding_snd (st : StoreState) (entry : NewEntry)
    (id : String) (now : ℤ) (eo : EmbedOutcome) :
    (storeWithEmbedding st entry id now eo).2.id = id ∧
    (storeWithEmbedding st entry id now eo).2.createdAt = now ∧
    (storeWithEmbedding st entry id now eo).2.value = entry.value ∧
    (storeWithEmbedding st entry id now eo).2.expiresAt
      = (insertedFact entry id now).expiresAt := by
  unfold storeWithEmbedding
  cases getEmbedding eo <;> exact ⟨rfl, rfl, rfl, rfl⟩

/-! ## C4 -/

/-- C4: for every fact created by `store` (with a decay class the
interface admits: one of the five tiers, or empty = unspecified), the row
is persisted with `expiresAt = none` iff the effective decay class is
`permanent` (equivalently, iff its default TTL is null), and otherwise
`expiresAt = ⌊now/1000⌋ + TTL(decayClass)`; the TTL table is
permanent→null, stable→90 d, active→14 d, session→24 h, checkpoint→4 h,
and an unspecified tier defaults to `stable`. -/
theorem store_ttl_invariant (st : StoreState) (entry : NewEntry) (id : String)
    (now : ℤ) (eo : EmbedOutcome)
    (h : entry.decayClass
      ∈ (["", "permanent", "stable", "active", "session", "checkpoint"] : List String)) :
    (storeWithEmbedding st entry id now eo).1.facts
        = st.facts ++ [insertedFact entry id now] ∧
    (insertedFact entry id now).decayClass
        = (if entry.decayClass = "" then "stable" else entry.decayClass) ∧
    ((insertedFact entry id now).expiresAt = none ↔
      ((insertedFact entry id now).decayClass = "permanent" ∨
        TTL_DEFAULTS (insertedFact entry id now).decayClass = some none)) ∧
    (∀ t : ℤ, TTL_DEFAULTS (insertedFact entry id now).decayClass = some (some t) →
        t ≠ 0 → (insertedFact entry id now).expiresAt = some (Int.fdiv now 1000 + t)) ∧
    (TTL_DEFAULTS "permanent" = some none ∧
      TTL_DEFAULTS "stable" = some (some (90 * 24 * 3600)) ∧
      TTL_DEFAULTS "active" = some (some (14 * 24 * 3600)) ∧
      TTL_DEFAULTS "session" = some (some (24 * 3600)) ∧
      TTL_DEFAULTS "checkpoint" = some (some (4 * 3600))) := by
  refine ⟨storeWithEmbedding_facts st entry id now eo, ?_⟩
  simp only [List.mem_cons, List.mem_singleton, List.not_mem_nil, or_false] at h
  rcases h with h | h | h | h | h | h <;>
    simp [insertedFact, computeExpiresAt, TTL_DEFAULTS, h]

/-- C4 witness: a concrete `stable` store at `now = 2000000` ms gets
`expiresAt = 2000 + 90·24·3600`, and a concrete `permanent` store gets
`expiresAt = none`. -/
theorem store_ttl_invariant_witness :
    (insertedFact ⟨"shared", "user", none, "v", "t", "fact", "stable", 1, "cli", 1⟩
        "id0" 2000000).expiresAt = some (2000 + 90 * 24 * 3600) ∧
    (insertedFact ⟨"shared", "user", none, "v", "t", "fact", "permanent", 1, "cli", 1⟩
        "id1" 2000000).expiresAt = none := by
  constructor
  · exact (store_ttl_invariant ⟨[], []⟩
      ⟨"shared", "user", none, "v", "t", "fact", "stable", 1, "cli", 1⟩
      "id0" 2000000 .err (by decide)).2.2.2.1 (90 * 24 * 3600) (by decide) (by decide)
  · exact (store_ttl_invariant ⟨[], []⟩
      ⟨"shared", "user", none, "v", "t", "fact", "permanent", 1, "cli", 1⟩
      "id1" 2000000 .err (by decide)).2.2.1.mpr (Or.inl (by decide))

/-! ## C5 -/

/-- C5: `prune` deletes exactly the facts whose `expiresAt` is non-null
and `< now`, leaves every other fact untouched (the survivors are the
original list with the expired rows removed, in order), and is
idempotent. -/
theorem prune_exact (facts : List MemoryEntry) (now : ℤ) :
    (∀ f : MemoryEntry,
      f ∈ prune facts now ↔ (f ∈ facts ∧ ¬ ∃ e : ℤ, f.expiresAt = some e ∧ e < now)) ∧
    (prune facts now).Sublist facts ∧
    prune (prune facts now) now = prune facts now := by
  refine ⟨?_, List.filter_sublist _, ?_⟩
  · intro f
    constructor
    · intro hf
      rcases List.mem_filter.mp hf with ⟨hmem, hcond⟩
      refine ⟨hmem, ?_⟩
      rintro ⟨e, he, hlt⟩
      simp [isExpired, he, hlt] at hcond
    · rintro ⟨hmem, hne⟩
      refine List.mem_filter.mpr ⟨hmem, ?_⟩
      simp only [isExpired, Bool.not_eq_true']
      cases he : f.expiresAt with
      | none => rfl
      | some e =>
        simp only [decide_eq_false_iff_not]
        intro hlt
        exact hne ⟨e, he, hlt⟩
  · unfold prune
    rw [List.filter_filter]
    simp

/-! ## C6 -/

/-- C6: `hydeExpand` returns `[original, expansion]` exactly when the
provider's response is present and its trimmed text is longer than 10
characters; in every other case — shorter response, missing field,
non-success status, thrown error — it returns exactly `[original]`, and
in all cases it returns normally (always a list starting with the
original query; nothing is raised to the caller). -/
theorem hydeExpand_degrades (q : String) (o : HydeOutcome) :
    (∀ r : String, o = .ok (some r) → (jsTrim r).length > 10 →
        hydeExpand q o = [q, jsTrim r]) ∧
    (∀ r : String, o = .ok (some r) → ¬ (jsTrim r).length > 10 →
        hydeExpand q o = [q]) ∧
    ((o = .err ∨ o = .notOk ∨ o = .ok none) → hydeExpand q o = [q]) ∧
    ((hydeExpand q o).head? = some q) ∧
    (hydeExpand q o = [q] ∨ ∃ e : String, hydeExpand q o = [q, e]) := by
  refine ⟨?_, ?_, ?_, ?_, ?_⟩
  · rintro r rfl hlen
    have hne : jsTrim r ≠ "" := by
      intro h0
      rw [h0] at hlen
      simp at hlen
    simp [hydeExpand, hne, hlen]
  · rintro r rfl hlen
    simp [hydeExpand]
    intro _
    omega
  · rintro (rfl | rfl | rfl) <;> simp [hydeExpand]
  · cases o with
    | err => rfl
    | notOk => rfl
    | ok r =>
      cases r with
      | none => rfl
      | some s =>
        simp only [hydeExpand]
        split <;> rfl
  · cases o with
    | err => exact Or.inl rfl
    | notOk => exact Or.inl rfl
    | ok r =>
      cases r with
      | none => exact Or.inl rfl
      | some s =>
        simp only [hydeExpand]
        split
        · exact Or.inr ⟨jsTrim s, rfl⟩
        · exact Or.inl rfl

/-- C6 witness: a 12-character response yields both variants, a
non-success status yields only the original. -/
theorem hydeExpand_degrades_witness :
    hydeExpand "vague query" (.ok (some "abcdefghijkl")) = ["vague query", "abcdefghijkl"] ∧
    hydeExpand "vague query" .notOk = ["vague query"] := by
  constructor
  · exact (hydeExpand_degrades "vague query" (.ok (some "abcdefghijkl"))).1
      "abcdefghijkl" rfl (by decide)
  · exact (hydeExpand_degrades "vague query" .notOk).2.2.1 (Or.inr (Or.inl rfl))

/-! ## C7 -/

/-- C7: when the embedding call fails in any way (`getEmbedding` returns
null), `storeWithEmbedding` still appends the fact row, still returns the
stored entry (same id, creation time, value and expiry as the persisted
row), and only the embedding table is left untouched. -/
theorem store_survives_embedding_failure (st : StoreState) (entry : NewEntry)
    (id : String) (now : ℤ) (eo : EmbedOutcome)
    (h : getEmbedding eo = none) :
    (storeWithEmbedding st entry id now eo).1.facts
        = st.facts ++ [insertedFact entry id now] ∧
    (storeWithEmbedding st entry id now eo).1.embeddings = st.embeddings ∧
    (storeWithEmbedding st entry id now eo).2.id = id ∧
    (storeWithEmbedding st entry id now eo).2.createdAt = now ∧
    (storeWithEmbedding st entry id now eo).2.value = entry.value ∧
    (storeWithEmbedding st entry id now eo).2.expiresAt
        = (insertedFact entry id now).expiresAt := by
  obtain ⟨h1, h2, h3, h4⟩ := storeWithEmbedding_snd st entry id now eo
  exact ⟨storeWithEmbedding_facts st entry id now eo,
    storeWithEmbedding_embeddings_of_none st entry id now eo h, h1, h2, h3, h4⟩

/-- C7 witness: a thrown embedding fetch (`.err`) still persists and
returns the fact. -/
theorem store_survives_embedding_failure_witness :
    (storeWithEmbedding ⟨[], []⟩
        ⟨"shared", "user", none, "Alice", "t", "fact", "stable", 1, "cli", 1⟩
        "id2" 5000 .err).1.facts
      = [insertedFact ⟨"shared", "user", none, "Alice", "t", "fact", "stable", 1, "cli", 1⟩
          "id2" 5000] ∧
    (storeWithEmbedding ⟨[], []⟩
        ⟨"shared", "user", none, "Alice", "t", "fact", "stable", 1, "cli", 1⟩
        "id2" 5000 .err).1.embeddings = [] := by
  have h := store_survives_embedding_failure ⟨[], []⟩
    ⟨"shared", "user", none, "Alice", "t", "fact", "stable", 1, "cli", 1⟩
    "id2" 5000 .err rfl
  exact ⟨by rw [h.1]; rfl, h.2.1⟩

/-! ## C10 -/

/-- C10: a non-empty `--decay` string that is none of the five known
tiers passes through the CLI unvalidated down to `storeWithEmbedding`,
whose TTL lookup misses, so both the persisted row and the returned entry
get `expiresAt = null` — the misclassified fact never expires.  (An
*empty* `--decay` value is coerced to `"stable"` by the CLI before the
entry is built, so it never reaches the store.) -/
theorem unknown_decay_never_expires (d : String)
    (hmem : d ∉ (["permanent", "stable", "active", "session", "checkpoint"] : List String))
    (hne : d ≠ "")
    (entity value text persona category source : String) (key : Option String)
    (importance : ℚ) (st : StoreState) (id : String) (now : ℤ) (eo : EmbedOutcome) :
    (cliStoreEntry entity value key text persona category d source importance).decayClass
        = d ∧
    (insertedFact (cliStoreEntry entity value key text persona category d source importance)
        id now).expiresAt = none ∧
    (storeWithEmbedding st
        (cliStoreEntry entity value key text persona category d source importance)
        id now eo).2.expiresAt = none := by
  simp only [List.mem_cons, List.mem_singleton, List.not_mem_nil, or_false,
    not_or] at hmem
  obtain ⟨h1, h2, h3, h4, h5⟩ := hmem
  have hd : (cliStoreEntry entity value key text persona category d source
      importance).decayClass = d := by
    simp [cliStoreEntry, hne]
  have hexp : (insertedFact (cliStoreEntry entity value key text persona category d
      source importance) id now).expiresAt = none := by
    simp only [insertedFact, hd, hne, if_neg]
    simp [computeExpiresAt, TTL_DEFAULTS, hne, h1, h2, h3, h4, h5]
  refine ⟨hd, hexp, ?_⟩
  rw [(storeWithEmbedding_snd st _ id now eo).2.2.2]
  exact hexp

/-- C10 witness: `--decay forever` (not a known tier) stores a fact that
never expires. -/
theorem unknown_decay_never_expires_witness :
    (insertedFact (cliStoreEntry "user" "v" none "" "" "" "forever" "" 1)
        "id3" 7000).expiresAt = none := by
  exact (unknown_decay_never_expires "forever" (by decide) (by decide)
    "user" "v" "" "" "" "" none 1 ⟨[], []⟩ "id3" 7000 .err).2.1

/-! ## Helper lemmas: min/max of the rank list -/

instance : Std.Antisymm (fun a b : ℚ => a ≤ b) :=
  ⟨fun {_ _} h h' => le_antisymm h h'⟩

lemma rat_min?_eq_some_iff {a : ℚ} {xs : List ℚ} :
    xs.min? = some a ↔ a ∈ xs ∧ ∀ b ∈ xs, a ≤ b :=
  List.min?_eq_some_iff (fun a => le_refl a) (fun a b => min_choice a b)
    (fun _ _ _ => le_min_iff)

lemma rat_max?_eq_some_iff {a : ℚ} {xs : List ℚ} :
    xs.max? = some a ↔ a ∈ xs ∧ ∀ b ∈ xs, b ≤ a :=
  List.max?_eq_some_iff (fun a => le_refl a) (fun a b => max_choice a b)
    (fun _ _ _ => max_le_iff)

lemma minRankOf_le {rows : List (MemoryEntry × ℚ)} {r : MemoryEntry × ℚ}
    (hr : r ∈ rows) : minRankOf rows ≤ r.2 := by
  cases hmin : (rows.map Prod.snd).min? with
  | none =>
    rw [List.min?_eq_none_iff, List.map_eq_nil_iff] at hmin
    subst hmin
    simp at hr
  | some m =>
    have h := (rat_min?_eq_some_iff.mp hmin).2 r.2 (List.mem_map_of_mem _ hr)
    simpa [minRankOf, hmin] using h

lemma le_maxRankOf {rows : List (MemoryEntry × ℚ)} {r : MemoryEntry × ℚ}
    (hr : r ∈ rows) : r.2 ≤ maxRankOf rows := by
  cases hmax : (rows.map Prod.snd).max? with
  | none =>
    rw [List.max?_eq_none_iff, List.map_eq_nil_iff] at hmax
    subst hmax
    simp at hr
  | some m =>
    have h := (rat_max?_eq_some_iff.mp hmax).2 r.2 (List.mem_map_of_mem _ hr)
    simpa [maxRankOf, hmax] using h

lemma lexNorm_of_spread_zero {minR maxR rank : ℚ} (h : maxR - minR = 0) :
    lexNorm minR maxR rank = 1 := by
  simp [lexNorm, h]

lemma lexNorm_of_max {minR maxR rank : ℚ} (h : maxR - minR ≠ 0)
    (h2 : rank = maxR) : lexNorm minR maxR rank = 0.8 := by
  simp [lexNorm, h, h2]

lemma lexNorm_of_mid {minR maxR rank : ℚ} (h : maxR - minR ≠ 0)
    (h2 : rank ≠ maxR) :
    lexNorm minR maxR rank = 1 - (rank - minR) / (maxR - minR) := by
  simp [lexNorm, h, h2]

/-- The exposed `ftsSearch` score of every row is exactly `lexNorm` of its
rank over the result set's min/max. -/
lemma scoreRows_eq_lexNorm (rows : List (MemoryEntry × ℚ)) :
    scoreRows rows
      = rows.map (fun r => (r.1, lexNorm (minRankOf rows) (maxRankOf rows) r.2)) := by
  unfold scoreRows
  apply List.map_congr_left
  intro r hr
  have hmin := minRankOf_le hr
  have hmax := le_maxRankOf hr
  by_cases hspread : maxRankOf rows - minRankOf rows = 0
  · have heq : maxRankOf rows = minRankOf rows := by linarith
    have hr2 : r.2 = minRankOf rows := le_antisymm (heq ▸ hmax) hmin
    have hrange1 : rangeOf rows = 1 := by simp [rangeOf, hspread]
    have hs1 : (1 : ℚ) - (r.2 - minRankOf rows) / rangeOf rows = 1 := by
      rw [hrange1, hr2]
      ring
    simp only [hs1, lexNorm_of_spread_zero hspread]
    norm_num
  · have hrange : rangeOf rows = maxRankOf rows - minRankOf rows := by
      simp [rangeOf, hspread]
    by_cases hmaxr : r.2 = maxRankOf rows
    · have hs0 : (1 : ℚ) - (r.2 - minRankOf rows) / rangeOf rows = 0 := by
        rw [hrange, hmaxr, div_self hspread]
        ring
      simp only [hs0, lexNorm_of_max hspread hmaxr]
      norm_num
    · have hne : (1 : ℚ) - (r.2 - minRankOf rows) / rangeOf rows ≠ 0 := by
        rw [hrange]
        intro h0
        apply hmaxr
        have h1 : (r.2 - minRankOf rows) / (maxRankOf rows - minRankOf rows) = 1 := by
          linarith
        have h2 := (div_eq_one_iff_eq hspread).mp h1
        linarith
      dsimp only
      rw [if_pos hne, lexNorm_of_mid hspread hmaxr, hrange]

/-! ## C3 -/

/-- C3 (amended): for every non-empty lexical result set, the exposed
score of each row is the min–max normalization `1 - (rank - min)/range`
of its native rank — which is 1 (not 0.8) when the set has a single
candidate or zero rank spread, maps the best (lowest) rank to 1, stays in
[0,1] — except that the worst-ranked row of a set with non-zero spread,
whose normalized value would be the falsy 0, gets the 0.8 fallback
instead. -/
theorem fts_minmax_normalization (dbRows : String → List (MemoryEntry × ℚ))
    (q : String) (hq : buildSafeQuery q ≠ "") :
    ftsSearch dbRows q
      = (dbRows (buildSafeQuery q)).map
          (fun r => (r.1,
            lexNorm (minRankOf (dbRows (buildSafeQuery q)))
              (maxRankOf (dbRows (buildSafeQuery q))) r.2)) ∧
    (∀ r ∈ dbRows (buildSafeQuery q),
        maxRankOf (dbRows (buildSafeQuery q))
            = minRankOf (dbRows (buildSafeQuery q)) →
        (r.1, (1 : ℚ)) ∈ ftsSearch dbRows q) ∧
    (∀ r ∈ dbRows (buildSafeQuery q),
        r.2 = minRankOf (dbRows (buildSafeQuery q)) →
        (r.1, (1 : ℚ)) ∈ ftsSearch dbRows q) ∧
    (∀ p ∈ ftsSearch dbRows q, 0 ≤ p.2 ∧ p.2 ≤ 1) := by
  have hunfold : ftsSearch dbRows q = scoreRows (dbRows (buildSafeQuery q)) := by
    simp [ftsSearch, hq]
  have hchar := scoreRows_eq_lexNorm (dbRows (buildSafeQuery q))
  refine ⟨hunfold.trans hchar, ?_, ?_, ?_⟩
  · intro r hr hzero
    have hspread : maxRankOf (dbRows (buildSafeQuery q))
        - minRankOf (dbRows (buildSafeQuery q)) = 0 := by linarith
    rw [hunfold.trans hchar]
    have hv := @lexNorm_of_spread_zero
      (minRankOf (dbRows (buildSafeQuery q)))
      (maxRankOf (dbRows (buildSafeQuery q))) r.2 hspread
    exact hv ▸ List.mem_map_of_mem _ hr
  · intro r hr hr2
    have hmax := le_maxRankOf hr
    rw [hunfold.trans hchar]
    by_cases hspread : maxRankOf (dbRows (buildSafeQuery q))
        - minRankOf (dbRows (buildSafeQuery q)) = 0
    · exact (@lexNorm_of_spread_zero
        (minRankOf (dbRows (buildSafeQuery q)))
        (maxRankOf (dbRows (buildSafeQuery q))) r.2 hspread) ▸
        List.mem_map_of_mem _ hr
    · have hmaxr : r.2 ≠ maxRankOf (dbRows (buildSafeQuery q)) := by
        rw [hr2]
        intro h
        exact hspread (by linarith)
      have hv : lexNorm (minRankOf (dbRows (buildSafeQuery q)))
          (maxRankOf (dbRows (buildSafeQuery q))) r.2 = 1 := by
        rw [lexNorm_of_mid hspread hmaxr, hr2]
        simp
      exact hv ▸ List.mem_map_of_mem _ hr
  · intro p hp
    rw [hunfold.trans hchar] at hp
    rcases List.mem_map.mp hp with ⟨r, hr, rfl⟩
    have hmin := minRankOf_le hr
    have hmax := le_maxRankOf hr
    by_cases hspread : maxRankOf (dbRows (buildSafeQuery q))
        - minRankOf (dbRows (buildSafeQuery q)) = 0
    · rw [lexNorm_of_spread_zero hspread]
      norm_num
    · by_cases hmaxr : r.2 = maxRankOf (dbRows (buildSafeQuery q))
      · rw [lexNorm_of_max hspread hmaxr]
        norm_num
      · have hpos : 0 < maxRankOf (dbRows (buildSafeQuery q))
            - minRankOf (dbRows (buildSafeQuery q)) := by
          rcases lt_or_eq_of_le (hmin.trans hmax) with h | h
          · linarith
          · exact absurd (by linarith) hspread
        rw [lexNorm_of_mid hspread hmaxr]
        constructor
        · have hlt : r.2 < maxRankOf (dbRows (buildSafeQuery q)) :=
            lt_of_le_of_ne hmax hmaxr
          have hdlt : (r.2 - minRankOf (dbRows (buildSafeQuery q)))
              / (maxRankOf (dbRows (buildSafeQuery q))
                  - minRankOf (dbRows (buildSafeQuery q))) < 1 := by
            rw [div_lt_one hpos]
            linarith
          linarith
        · have hd0 : 0 ≤ (r.2 - minRankOf (dbRows (buildSafeQuery q)))
              / (maxRankOf (dbRows (buildSafeQuery q))
                  - minRankOf (dbRows (buildSafeQuery q))) :=
            div_nonneg (by linarith) (le_of_lt hpos)
          linarith

/-- C3 counterexample: a single-candidate result set.  The claim says its
score is the 0.8 fallback; the code exposes 1 (the normalized value
`1 - 0/1` is truthy, so the `|| 0.8` fallback never fires). -/
theorem fts_singleton_score_counterexample :
    ftsSearch dbSingle "hello" = [(factA, 1)] ∧ ((1 : ℚ) ≠ 0.8) := by
  constructor
  · have hne : buildSafeQuery "hello" ≠ "" := by decide
    simp only [ftsSearch, if_neg hne]
    norm_num [dbSingle, scoreRows, minRankOf, maxRankOf, rangeOf,
      List.min?, List.max?, List.foldl, min_def, max_def]
  · norm_num

/-- C3 witness: a two-row set with ranks −3 and −1 — the best row is
normalized to 1 and the worst row receives the 0.8 fallback. -/
theorem fts_minmax_normalization_witness :
    ftsSearch dbPair "hello" = [(factA, 1), (factB, 0.8)] := by
  have h := (fts_minmax_normalization dbPair "hello" (by decide)).1
  rw [h]
  simp only [dbPair]
  have hmin : minRankOf [(factA, -3), (factB, -1)] = -3 := by
    norm_num [minRankOf, List.min?, List.foldl, min_def]
  have hmax : maxRankOf [(factA, -3), (factB, -1)] = -1 := by
    norm_num [maxRankOf, List.max?, List.foldl, max_def]
  simp only [List.map, hmin, hmax]
  norm_num [lexNorm]

/-! ## C2 -/

/-- C2 (amended): a hybrid search with the expansion provider unreachable
returns results identical (entries and scores, scored by the hybrid
composite formula) to a hybrid search with expansion disabled; and the
pure-lexical path exposes for each candidate exactly the min–max
normalized lexical score — no freshness or confidence term enters it. -/
theorem lexical_only_path :
    (∀ (dbRows : String → List FtsHit) (embRows : List VecHit) (q : String)
        (o : HydeOutcome) (nowSec : ℤ) (limit : ℕ),
      hybridSearch dbRows embRows q true .err nowSec limit
        = hybridSearch dbRows embRows q false o nowSec limit) ∧
    (∀ (dbRows : String → List (MemoryEntry × ℚ)) (q : String)
        (p : MemoryEntry × ℚ),
      p ∈ ftsSearch dbRows q →
      ∃ r ∈ dbRows (buildSafeQuery q),
        p = (r.1, lexNorm (minRankOf (dbRows (buildSafeQuery q)))
              (maxRankOf (dbRows (buildSafeQuery q))) r.2)) := by
  constructor
  · intro dbRows embRows q o nowSec limit
    rfl
  · intro dbRows q p hp
    by_cases hbq : buildSafeQuery q = ""
    · simp [ftsSearch, hbq] at hp
    · simp only [ftsSearch, if_neg hbq, scoreRows_eq_lexNorm] at hp
      rcases List.mem_map.mp hp with ⟨r, hr, heq⟩
      exact ⟨r, hr, heq.symm⟩

/-- C2 counterexample: a lexical-only result whose candidate has
confidence 0 and no expiry (freshness 1).  The exposed score is 1, but
the claimed weighting `0.6·normalizedLexicalScore + 0.25·freshness +
0.15·confidence` would give 0.85 (with the actual normalized score 1) or
0.73 (with the 0.8 normalization the claim itself posits) — the
pure-lexical path carries no freshness/confidence weighting at all. -/
theorem lexical_weighting_counterexample :
    (ftsSearch dbZeroConf "hello").map Prod.snd = [(1 : ℚ)] ∧
    factZ.confidence = 0 ∧ factZ.expiresAt = none ∧
    (0.6 * (1 : ℚ) + 0.25 * 1 + 0.15 * 0 ≠ 1) ∧
    (0.6 * (0.8 : ℚ) + 0.25 * 1 + 0.15 * 0 ≠ 1) := by
  refine ⟨?_, rfl, rfl, by norm_num, by norm_num⟩
  have hne : buildSafeQuery "hello" ≠ "" := by decide
  simp only [ftsSearch, if_neg hne]
  norm_num [dbZeroConf, scoreRows, minRankOf, maxRankOf, rangeOf,
    List.min?, List.max?, List.foldl, min_def, max_def]

/-- C2 witness: the hybrid fallback equality at a concrete instance, and
the lexical characterization applied to the concrete best row of
`dbPair`. -/
theorem lexical_only_path_witness :
    hybridSearch hybridDbSingle [] "vague query" true .err 5 6
      = hybridSearch hybridDbSingle [] "vague query" false (.ok (some "x")) 5 6 ∧
    ∃ r ∈ dbPair (buildSafeQuery "hello"),
      ((factA, (1 : ℚ)) : MemoryEntry × ℚ)
        = (r.1, lexNorm (minRankOf (dbPair (buildSafeQuery "hello")))
            (maxRankOf (dbPair (buildSafeQuery "hello"))) r.2) := by
  constructor
  · exact lexical_only_path.1 hybridDbSingle [] "vague query" (.ok (some "x")) 5 6
  · apply lexical_only_path.2 dbPair "hello" (factA, 1)
    have h := (fts_minmax_normalization dbPair "hello" (by decide)).2.2.1
    apply h (factA, -3)
    · norm_num [dbPair]
    · norm_num [dbPair, minRankOf, List.min?, min_def]

/-! ## Helper lemmas: cosine similarity -/

lemma dotProduct_comm (a b : List ℝ) : dotProduct a b = dotProduct b a := by
  unfold dotProduct
  rw [List.zipWith_comm_of_comm _ (fun x y => mul_comm x y)]

lemma dotProduct_eq_sum_getD (a : List ℝ) :
    ∀ b : List ℝ, a.length = b.length →
      dotProduct a b = ∑ i ∈ Finset.range a.length, a.getD i 0 * b.getD i 0 := by
  induction a with
  | nil =>
    intro b _
    simp [dotProduct]
  | cons x xs ih =>
    intro b hb
    cases b with
    | nil => simp at hb
    | cons y ys =>
      have hlen : xs.length = ys.length := by
        simpa using hb
      have hsum := Finset.sum_range_succ'
        (fun i => (x :: xs).getD i 0 * (y :: ys).getD i 0) xs.length
      simp only [List.length_cons]
      rw [hsum]
      simp only [List.getD_cons_succ, List.getD_cons_zero]
      have hdot : dotProduct (x :: xs) (y :: ys) = x * y + dotProduct xs ys := by
        simp [dotProduct]
      rw [hdot, ih ys hlen]
      ring

lemma listCauchySchwarz (a b : List ℝ) (h : a.length = b.length) :
    (dotProduct a b) ^ 2 ≤ dotProduct a a * dotProduct b b := by
  rw [dotProduct_eq_sum_getD a b h, dotProduct_eq_sum_getD a a rfl,
    dotProduct_eq_sum_getD b b rfl, ← h]
  have hcs := Finset.sum_mul_sq_le_sq_mul_sq (Finset.range a.length)
    (fun i => a.getD i 0) (fun i => b.getD i 0)
  have h1 : ∑ i ∈ Finset.range a.length, (a.getD i 0) ^ 2
      = ∑ i ∈ Finset.range a.length, a.getD i 0 * a.getD i 0 :=
    Finset.sum_congr rfl (fun i _ => pow_two _)
  have h2 : ∑ i ∈ Finset.range a.length, (b.getD i 0) ^ 2
      = ∑ i ∈ Finset.range a.length, b.getD i 0 * b.getD i 0 :=
    Finset.sum_congr rfl (fun i _ => pow_two _)
  rw [h1, h2] at hcs
  exact hcs

/-! ## C8 -/

/-- C8 (amended): for equal-length vectors, cosine similarity is
symmetric; it is bounded in [−1, 1] provided both vectors have positive
self-dot-product (nonzero vectors); and the similarity of a nonzero
vector with itself is exactly 1.  (For a zero vector the source divides
0 by 0 — NaN in JS — so the positivity hypotheses are necessary.) -/
theorem cosine_similarity_properties :
    (∀ a b : List ℝ, dotProduct a b = dotProduct b a ∧
        cosineSimilarity a b = cosineSimilarity b a) ∧
    (∀ a b : List ℝ, a.length = b.length → 0 < dotProduct a a →
        0 < dotProduct b b →
        -1 ≤ cosineSimilarity a b ∧ cosineSimilarity a b ≤ 1) ∧
    (∀ a : List ℝ, 0 < dotProduct a a → cosineSimilarity a a = 1) := by
  refine ⟨?_, ?_, ?_⟩
  · intro a b
    refine ⟨dotProduct_comm a b, ?_⟩
    unfold cosineSimilarity
    rw [dotProduct_comm a b, mul_comm]
  · intro a b hlen hA hB
    have hCS := listCauchySchwarz a b hlen
    have hsA : 0 < Real.sqrt (dotProduct a a) := Real.sqrt_pos.mpr hA
    have hsB : 0 < Real.sqrt (dotProduct b b) := Real.sqrt_pos.mpr hB
    have hden : 0 < Real.sqrt (dotProduct a a) * Real.sqrt (dotProduct b b) :=
      mul_pos hsA hsB
    have habs : |dotProduct a b|
        ≤ Real.sqrt (dotProduct a a) * Real.sqrt (dotProduct b b) := by
      rw [← Real.sqrt_sq_eq_abs, ← Real.sqrt_mul (le_of_lt hA)]
      exact Real.sqrt_le_sqrt hCS
    obtain ⟨hlow, hhigh⟩ := abs_le.mp habs
    constructor
    · unfold cosineSimilarity
      rw [le_div_iff hden]
      linarith
    · unfold cosineSimilarity
      rw [div_le_one hden]
      exact hhigh
  · intro a hA
    unfold cosineSimilarity
    rw [Real.mul_self_sqrt (le_of_lt hA), div_self (ne_of_gt hA)]

/-- C8 counterexample: at the zero vector `[0]` the claim's
`sim(a,a) = 1` fails — the model's division by a zero norm yields 0 (the
source yields NaN), not 1. -/
theorem cosine_zero_vector_counterexample :
    cosineSimilarity [(0 : ℝ)] [(0 : ℝ)] = 0 ∧ ((0 : ℝ) ≠ 1) := by
  constructor
  · simp [cosineSimilarity, dotProduct]
  · norm_num

/-- C8 witness: the unit vector `[1, 0]` has self-similarity 1, and its
similarity with `[0, 1]` lies in [−1, 1]. -/
theorem cosine_similarity_properties_witness :
    cosineSimilarity [(1 : ℝ), 0] [(1 : ℝ), 0] = 1 ∧
    (-1 ≤ cosineSimilarity [(1 : ℝ), 0] [(0 : ℝ), 1] ∧
      cosineSimilarity [(1 : ℝ), 0] [(0 : ℝ), 1] ≤ 1) := by
  constructor
  · exact cosine_similarity_properties.2.2 [(1 : ℝ), 0]
      (by norm_num [dotProduct])
  · exact cosine_similarity_properties.2.1 [(1 : ℝ), 0] [(0 : ℝ), 1] rfl
      (by norm_num [dotProduct]) (by norm_num [dotProduct])

/-! ## Helper lemmas: skipped query variants -/

lemma collectFts_skip (dbRows : String → List FtsHit) (q : String)
    (hvr : variantRows dbRows q = []) :
    ∀ (pre post : List String) (init : List (String × FtsHit)),
      (pre ++ q :: post).foldl
          (fun m qv => (variantRows dbRows qv).foldl addFtsRow m) init
        = (pre ++ post).foldl
            (fun m qv => (variantRows dbRows qv).foldl addFtsRow m) init := by
  intro pre
  induction pre with
  | nil =>
    intro post init
    simp only [List.nil_append, List.foldl_cons, hvr, List.foldl_nil]
  | cons p ps ih =>
    intro post init
    simp only [List.cons_append, List.foldl_cons]
    exact ih post _

/-! ## C9 -/

/-- C9: the lexical MATCH query is built by stripping quote characters,
splitting on whitespace, dropping tokens of length ≤ 1, double-quoting
each survivor and joining with OR; when no token survives, the built
query is empty, the FTS-only search returns no candidates at all (the
database is never consulted), and a hybrid query variant with no
surviving token is skipped — it contributes nothing to the collected
lexical candidates. -/
theorem safe_query_construction (q : String) :
    (buildSafeQuery q
      = joinOr (((splitWsAux (stripQuotes q).data []).filter
          (fun w => w.length > 1)).map (fun w => "\"" ++ w ++ "\""))) ∧
    (queryTokens q = [] → buildSafeQuery q = "") ∧
    (queryTokens q = [] →
      ∀ dbRows : String → List (MemoryEntry × ℚ), ftsSearch dbRows q = []) ∧
    (queryTokens q = [] →
      ∀ (dbRows : String → List FtsHit) (pre post : List String),
        collectFts dbRows (pre ++ q :: post) = collectFts dbRows (pre ++ post)) := by
  refine ⟨rfl, ?_, ?_, ?_⟩
  · intro h
    simp [buildSafeQuery, h, joinOr]
  · intro h dbRows
    have hbq : buildSafeQuery q = "" := by simp [buildSafeQuery, h, joinOr]
    simp [ftsSearch, hbq]
  · intro h dbRows pre post
    have hbq : buildSafeQuery q = "" := by simp [buildSafeQuery, h, joinOr]
    have hvr : variantRows dbRows q = [] := by simp [variantRows, hbq]
    unfold collectFts
    exact collectFts_skip dbRows q hvr pre post []

/-- C9 witness: the query `"a b"` has no token longer than one character;
its safe query is empty, `ftsSearch` returns nothing, and the variant is
skipped in hybrid collection. -/
theorem safe_query_construction_witness :
    queryTokens "a b" = [] ∧ buildSafeQuery "a b" = "" ∧
    ftsSearch dbPair "a b" = [] ∧
    collectFts hybridDbSingle ["hello", "a b"]
      = collectFts hybridDbSingle ["hello"] := by
  have ht : queryTokens "a b" = [] := by decide
  refine ⟨ht, (safe_query_construction "a b").2.1 ht,
    (safe_query_construction "a b").2.2.1 ht dbPair, ?_⟩
  have h := (safe_query_construction "a b").2.2.2 ht hybridDbSingle ["hello"] []
  simpa using h

/-! ## Helper lemmas: association lists with JS Map semantics -/

lemma lookup_eq_none_of_not_mem_keys {σ : Type} {m : List (String × σ)}
    {k : String} (h : k ∉ m.map Prod.fst) : m.lookup k = none := by
  induction m with
  | nil => rfl
  | cons a as ih =>
    obtain ⟨a1, a2⟩ := a
    simp only [List.map_cons, List.mem_cons, not_or] at h
    have hne : (k == a1) = false := by
      simp only [beq_eq_false_iff_ne, ne_eq]
      exact h.1
    rw [List.lookup_cons, hne]
    exact ih h.2

lemma mem_keys_of_lookup_some {σ : Type} {m : List (String × σ)} {k : String}
    {v : σ} (h : m.lookup k = some v) : k ∈ m.map Prod.fst := by
  by_contra hk
  rw [lookup_eq_none_of_not_mem_keys hk] at h
  exact Option.noConfusion h

lemma mem_of_lookup_some {σ : Type} {m : List (String × σ)} {k : String}
    {v : σ} (h : m.lookup k = some v) : (k, v) ∈ m := by
  induction m with
  | nil => exact Option.noConfusion h
  | cons a as ih =>
    obtain ⟨a1, a2⟩ := a
    rw [List.lookup_cons] at h
    cases hbeq : k == a1 with
    | true =>
      rw [hbeq] at h
      have hk : k = a1 := beq_iff_eq.mp hbeq
      have hv : a2 = v := Option.some.inj h
      exact List.mem_cons.mpr (Or.inl (by rw [hk, hv]))
    | false =>
      rw [hbeq] at h
      exact List.mem_cons.mpr (Or.inr (ih h))

lemma lookup_some_of_mem_of_nodup {σ : Type} {m : List (String × σ)}
    (hnd : (m.map Prod.fst).Nodup) {k : String} {v : σ}
    (h : (k, v) ∈ m) : m.lookup k = some v := by
  induction m with
  | nil => simp at h
  | cons a as ih =>
    obtain ⟨a1, a2⟩ := a
    simp only [List.map_cons, List.nodup_cons] at hnd
    rcases List.mem_cons.mp h with heq | hmem
    · have hk : k = a1 := congrArg Prod.fst heq
      have hv : v = a2 := congrArg Prod.snd heq
      rw [List.lookup_cons, show (k == a1) = true from beq_iff_eq.mpr hk, hv]
    · have hne : (k == a1) = false := by
        simp only [beq_eq_false_iff_ne, ne_eq]
        intro hkk
        exact hnd.1 (hkk ▸ List.mem_map_of_mem Prod.fst hmem)
      rw [List.lookup_cons, hne]
      exact ih hnd.2 hmem

lemma lookup_update_self {σ : Type} (m : List (String × σ)) (k : String) (v : σ)
    (h : k ∈ m.map Prod.fst) :
    (m.map (fun p => if p.1 = k then (k, v) else p)).lookup k = some v := by
  induction m with
  | nil => simp at h
  | cons a as ih =>
    obtain ⟨a1, a2⟩ := a
    by_cases ha : a1 = k
    · simp only [List.map_cons, if_pos ha]
      rw [List.lookup_cons, show (k == k) = true from beq_self_eq_true k]
    · simp only [List.map_cons, if_neg ha]
      have hne : (k == a1) = false := by
        simp only [beq_eq_false_iff_ne, ne_eq]
        exact fun hk => ha hk.symm
      rw [List.lookup_cons, hne]
      apply ih
      simp only [List.map_cons, List.mem_cons] at h
      rcases h with h | h
      · exact absurd h.symm ha
      · exact h

lemma lookup_update_ne {σ : Type} (m : List (String × σ)) (k k' : String) (v : σ)
    (h : k' ≠ k) :
    (m.map (fun p => if p.1 = k then (k, v) else p)).lookup k' = m.lookup k' := by
  induction m with
  | nil => rfl
  | cons a as ih =>
    obtain ⟨a1, a2⟩ := a
    by_cases ha : a1 = k
    · simp only [List.map_cons, if_pos ha]
      have h1 : (k' == k) = false := by
        simp only [beq_eq_false_iff_ne, ne_eq]
        exact h
      have h2 : (k' == a1) = false := by
        simp only [beq_eq_false_iff_ne, ne_eq]
        exact ha ▸ h
      rw [List.lookup_cons, h1, List.lookup_cons, h2]
      exact ih
    · simp only [List.map_cons, if_neg ha]
      rw [List.lookup_cons, List.lookup_cons]
      cases hbeq : k' == a1
      · exact ih
      · rfl

lemma lookup_append_single_self {σ : Type} (m : List (String × σ)) (k : String)
    (v : σ) (h : m.lookup k = none) :
    (m ++ [(k, v)]).lookup k = some v := by
  induction m with
  | nil =>
    rw [List.nil_append, List.lookup_cons,
      show (k == k) = true from beq_self_eq_true k]
  | cons a as ih =>
    obtain ⟨a1, a2⟩ := a
    rw [List.lookup_cons] at h
    rw [List.cons_append, List.lookup_cons]
    cases hbeq : k == a1 with
    | true =>
      rw [hbeq] at h
      exact Option.noConfusion h
    | false =>
      rw [hbeq] at h
      exact ih h

lemma lookup_append_single_ne {σ : Type} (m : List (String × σ)) (k k' : String)
    (v : σ) (h : k' ≠ k) :
    (m ++ [(k, v)]).lookup k' = m.lookup k' := by
  induction m with
  | nil =>
    rw [List.nil_append, List.lookup_cons,
      show (k' == k) = false from by
        simp only [beq_eq_false_iff_ne, ne_eq]
        exact h]
  | cons a as ih =>
    obtain ⟨a1, a2⟩ := a
    rw [List.cons_append, List.lookup_cons, List.lookup_cons]
    cases hbeq : k' == a1
    · exact ih
    · rfl

lemma lookup_mapSet_self {σ : Type} (m : List (String × σ)) (k : String)
    (v : σ) : (mapSet m k v).lookup k = some v := by
  unfold mapSet
  by_cases h : k ∈ m.map Prod.fst
  · rw [if_pos (List.elem_iff.mpr h)]
    exact lookup_update_self m k v h
  · rw [if_neg (by simpa [List.elem_iff] using h)]
    exact lookup_append_single_self m k v (lookup_eq_none_of_not_mem_keys h)

lemma lookup_mapSet_ne {σ : Type} (m : List (String × σ)) (k k' : String)
    (v : σ) (h : k' ≠ k) : (mapSet m k v).lookup k' = m.lookup k' := by
  unfold mapSet
  by_cases hm : k ∈ m.map Prod.fst
  · rw [if_pos (List.elem_iff.mpr hm)]
    exact lookup_update_ne m k k' v h
  · rw [if_neg (by simpa [List.elem_iff] using hm)]
    exact lookup_append_single_ne m k k' v h

lemma mapSet_keys_of_mem {σ : Type} {m : List (String × σ)} {k : String}
    (v : σ) (h : k ∈ m.map Prod.fst) :
    (mapSet m k v).map Prod.fst = m.map Prod.fst := by
  unfold mapSet
  rw [if_pos (List.elem_iff.mpr h), List.map_map]
  apply List.map_congr_left
  intro p _
  by_cases hp : p.1 = k
  · simp [hp]
  · simp [hp]

lemma mapSet_keys_of_not_mem {σ : Type} {m : List (String × σ)} {k : String}
    (v : σ) (h : k ∉ m.map Prod.fst) :
    (mapSet m k v).map Prod.fst = m.map Prod.fst ++ [k] := by
  unfold mapSet
  rw [if_neg (by simpa [List.elem_iff] using h), List.map_append]
  rfl

lemma mapSet_keys_nodup {σ : Type} {m : List (String × σ)} {k : String}
    (v : σ) (h : (m.map Prod.fst).Nodup) :
    ((mapSet m k v).map Prod.fst).Nodup := by
  by_cases hm : k ∈ m.map Prod.fst
  · rw [mapSet_keys_of_mem v hm]
    exact h
  · rw [mapSet_keys_of_not_mem v hm]
    refine List.Nodup.append h (List.nodup_singleton k) ?_
    intro a ha hb
    rw [List.mem_singleton] at hb
    exact hm (hb ▸ ha)

/-! ## Helper lemmas: candidate collection invariants -/

/-- Invariant of the FTS collection fold (lines 240-250): keys are
distinct; every stored hit is one of the processed rows, is keyed by its
own fact id, and carries a rank no worse than any processed row of that
id; ids with no processed row are absent. -/
def FtsInv (seen : List FtsHit) (m : List (String × FtsHit)) : Prop :=
  (m.map Prod.fst).Nodup ∧
  ∀ k : String,
    (∀ v, m.lookup k = some v →
      v ∈ seen ∧ v.entry.id = k ∧ ∀ r ∈ seen, r.entry.id = k → v.rank ≤ r.rank) ∧
    (m.lookup k = none → ∀ r ∈ seen, r.entry.id ≠ k)

lemma ftsInv_nil : FtsInv [] [] := by
  constructor
  · simp
  · intro k
    constructor
    · intro v hv
      simp [List.lookup] at hv
    · intro _ r hr
      simp at hr

lemma ftsInv_step {seen : List FtsHit} {m : List (String × FtsHit)}
    (h : FtsInv seen m) (row : FtsHit) :
    FtsInv (seen ++ [row]) (addFtsRow m row) := by
  obtain ⟨hnd, hch⟩ := h
  unfold addFtsRow
  cases hlk : m.lookup row.entry.id with
  | some existing =>
    show FtsInv (seen ++ [row])
      (if row.rank < existing.rank then mapSet m row.entry.id row else m)
    by_cases hrk : row.rank < existing.rank
    · rw [if_pos hrk]
      refine ⟨mapSet_keys_nodup _ hnd, ?_⟩
      intro k
      constructor
      · intro v hv
        by_cases hk : k = row.entry.id
        · subst hk
          rw [lookup_mapSet_self] at hv
          obtain rfl := Option.some.inj hv
          refine ⟨List.mem_append_right _ (List.mem_singleton_self row), rfl, ?_⟩
          intro r hr hid
          rcases List.mem_append.mp hr with hr | hr
          · exact le_of_lt (lt_of_lt_of_le hrk
              (((hch row.entry.id).1 existing hlk).2.2 r hr hid))
          · rw [List.mem_singleton] at hr
            subst hr
            exact le_refl _
        · rw [lookup_mapSet_ne _ _ _ _ hk] at hv
          obtain ⟨h1, h2, h3⟩ := (hch k).1 v hv
          refine ⟨List.mem_append_left _ h1, h2, ?_⟩
          intro r hr hid
          rcases List.mem_append.mp hr with hr | hr
          · exact h3 r hr hid
          · rw [List.mem_singleton] at hr
            subst hr
            exact absurd hid.symm hk
      · intro hv r hr hid
        by_cases hk : k = row.entry.id
        · subst hk
          rw [lookup_mapSet_self] at hv
          exact Option.noConfusion hv
        · rw [lookup_mapSet_ne _ _ _ _ hk] at hv
          rcases List.mem_append.mp hr with hr | hr
          · exact (hch k).2 hv r hr hid
          · rw [List.mem_singleton] at hr
            subst hr
            exact hk hid.symm
    · rw [if_neg hrk]
      refine ⟨hnd, ?_⟩
      intro k
      constructor
      · intro v hv
        obtain ⟨h1, h2, h3⟩ := (hch k).1 v hv
        refine ⟨List.mem_append_left _ h1, h2, ?_⟩
        intro r hr hid
        rcases List.mem_append.mp hr with hr | hr
        · exact h3 r hr hid
        · rw [List.mem_singleton] at hr
          subst hr
          have hk : k = r.entry.id := hid.symm
          subst hk
          rw [hlk] at hv
          obtain rfl := Option.some.inj hv
          exact le_of_not_lt hrk
      · intro hv r hr hid
        rcases List.mem_append.mp hr with hr | hr
        · exact (hch k).2 hv r hr hid
        · rw [List.mem_singleton] at hr
          subst hr
          rw [hid] at hlk
          rw [hv] at hlk
          exact Option.noConfusion hlk
  | none =>
    refine ⟨mapSet_keys_nodup _ hnd, ?_⟩
    intro k
    constructor
    · intro v hv
      by_cases hk : k = row.entry.id
      · subst hk
        rw [lookup_mapSet_self] at hv
        obtain rfl := Option.some.inj hv
        refine ⟨List.mem_append_right _ (List.mem_singleton_self row), rfl, ?_⟩
        intro r hr hid
        rcases List.mem_append.mp hr with hr | hr
        · exact absurd hid ((hch row.entry.id).2 hlk r hr)
        · rw [List.mem_singleton] at hr
          subst hr
          exact le_refl _
      · rw [lookup_mapSet_ne _ _ _ _ hk] at hv
        obtain ⟨h1, h2, h3⟩ := (hch k).1 v hv
        refine ⟨List.mem_append_left _ h1, h2, ?_⟩
        intro r hr hid
        rcases List.mem_append.mp hr with hr | hr
        · exact h3 r hr hid
        · rw [List.mem_singleton] at hr
          subst hr
          exact absurd hid.symm hk
    · intro hv r hr hid
      by_cases hk : k = row.entry.id
      · subst hk
        rw [lookup_mapSet_self] at hv
        exact Option.noConfusion hv
      · rw [lookup_mapSet_ne _ _ _ _ hk] at hv
        rcases List.mem_append.mp hr with hr | hr
        · exact (hch k).2 hv r hr hid
        · rw [List.mem_singleton] at hr
          subst hr
          exact hk hid.symm

lemma ftsInv_foldl (rows : List FtsHit) :
    ∀ (seen : List FtsHit) (m : List (String × FtsHit)), FtsInv seen m →
      FtsInv (seen ++ rows) (rows.foldl addFtsRow m) := by
  induction rows with
  | nil =>
    intro seen m h
    simpa using h
  | cons r rs ih =>
    intro seen m h
    have h2 := ih (seen ++ [r]) (addFtsRow m r) (ftsInv_step h r)
    simpa [List.append_assoc] using h2

lemma collectFts_eq_flatten_foldl (dbRows : String → List FtsHit)
    (variants : List String) :
    collectFts dbRows variants
      = ((variants.map (variantRows dbRows)).flatten).foldl addFtsRow [] := by
  unfold collectFts
  suffices h : ∀ (vs : List String) (init : List (String × FtsHit)),
      vs.foldl (fun m qv => (variantRows dbRows qv).foldl addFtsRow m) init
        = ((vs.map (variantRows dbRows)).flatten).foldl addFtsRow init by
    exact h variants []
  intro vs
  induction vs with
  | nil =>
    intro init
    rfl
  | cons v rest ih =>
    intro init
    simp only [List.foldl_cons, List.map_cons, List.flatten_cons,
      List.foldl_append]
    exact ih _

lemma collectFts_inv (dbRows : String → List FtsHit) (variants : List String) :
    FtsInv ((variants.map (variantRows dbRows)).flatten)
      (collectFts dbRows variants) := by
  rw [collectFts_eq_flatten_foldl]
  simpa using ftsInv_foldl _ [] [] ftsInv_nil

/-- Invariant of the vector collection fold (lines 267-280): keys are
distinct and every stored hit is one of the scanned rows, passed the 0.5
similarity floor, and is keyed by its own fact id. -/
def VecInv (seen : List VecHit) (m : List (String × VecHit)) : Prop :=
  (m.map Prod.fst).Nodup ∧
  ∀ k v, m.lookup k = some v → v ∈ seen ∧ v.similarity > 0.5 ∧ v.entry.id = k

lemma vecInv_step {seen : List VecHit} {m : List (String × VecHit)}
    (h : VecInv seen m) (row : VecHit) :
    VecInv (seen ++ [row])
      (if row.similarity > 0.5 then mapSet m row.entry.id row else m) := by
  obtain ⟨hnd, hch⟩ := h
  by_cases hs : row.similarity > 0.5
  · rw [if_pos hs]
    refine ⟨mapSet_keys_nodup _ hnd, ?_⟩
    intro k v hv
    by_cases hk : k = row.entry.id
    · subst hk
      rw [lookup_mapSet_self] at hv
      obtain rfl := Option.some.inj hv
      exact ⟨List.mem_append_right _ (List.mem_singleton_self row), hs, rfl⟩
    · rw [lookup_mapSet_ne _ _ _ _ hk] at hv
      obtain ⟨h1, h2, h3⟩ := hch k v hv
      exact ⟨List.mem_append_left _ h1, h2, h3⟩
  · rw [if_neg hs]
    refine ⟨hnd, ?_⟩
    intro k v hv
    obtain ⟨h1, h2, h3⟩ := hch k v hv
    exact ⟨List.mem_append_left _ h1, h2, h3⟩

lemma vecInv_foldl (rows : List VecHit) :
    ∀ (seen : List VecHit) (m : List (String × VecHit)), VecInv seen m →
      VecInv (seen ++ rows)
        (rows.foldl (fun m row =>
          if row.similarity > 0.5 then mapSet m row.entry.id row else m) m) := by
  induction rows with
  | nil =>
    intro seen m h
    simpa using h
  | cons r rs ih =>
    intro seen m h
    have h2 := ih (seen ++ [r]) _ (vecInv_step h r)
    simpa [List.append_assoc] using h2

lemma collectVec_inv (embRows : List VecHit) :
    VecInv embRows (collectVec embRows) := by
  have h0 : VecInv ([] : List VecHit) [] := by
    constructor
    · simp
    · intro k v hv
      simp [List.lookup] at hv
  simpa using vecInv_foldl embRows [] [] h0

/-! ## Helper lemmas: 1-based rank assignment -/

lemma enumFrom_keys {σ : Type} (l : List (String × σ)) :
    ∀ n : ℕ, ((l.enumFrom n).map (fun p => p.2.1)) = l.map Prod.fst := by
  induction l with
  | nil =>
    intro n
    rfl
  | cons a as ih =>
    intro n
    simp only [List.enumFrom_cons, List.map_cons, ih]

lemma addFtsScores_fresh :
    ∀ (ranked : List (ℕ × (String × FtsHit))) (init : List (String × ScoreAcc)),
      (∀ p ∈ ranked, p.2.1 ∉ init.map Prod.fst) →
      ((ranked.map (fun p => p.2.1)).Nodup) →
      addFtsScores init ranked
        = init ++ ranked.map
            (fun p => (p.2.1, (⟨p.2.2.entry, some p.1, none⟩ : ScoreAcc))) := by
  intro ranked
  induction ranked with
  | nil =>
    intro init _ _
    simp [addFtsScores]
  | cons p ps ih =>
    intro init hfresh hnd
    simp only [List.map_cons, List.nodup_cons] at hnd
    obtain ⟨hp, hnd'⟩ := hnd
    have hlk : init.lookup p.2.1 = none :=
      lookup_eq_none_of_not_mem_keys (hfresh p (List.mem_cons_self p ps))
    have hexp : addFtsScores init (p :: ps)
        = addFtsScores
            (init ++ [(p.2.1, (⟨p.2.2.entry, some p.1, none⟩ : ScoreAcc))]) ps := by
      simp only [addFtsScores, List.foldl_cons]
      congr 1
      rw [hlk]
    rw [hexp, ih _ ?_ hnd']
    · simp
    · intro q hq
      rw [List.map_append]
      intro hmem
      rcases List.mem_append.mp hmem with hmem | hmem
      · exact hfresh q (List.mem_cons_of_mem p hq) hmem
      · simp only [List.map_cons, List.map_nil, List.mem_singleton] at hmem
        exact hp (hmem ▸ List.mem_map_of_mem (fun p => p.2.1) hq)

lemma not_mem_keys_of_lookup_none {σ : Type} {m : List (String × σ)}
    {k : String} (h : m.lookup k = none) : k ∉ m.map Prod.fst := by
  induction m with
  | nil => simp
  | cons a as ih =>
    obtain ⟨a1, a2⟩ := a
    rw [List.lookup_cons] at h
    cases hbeq : k == a1 with
    | true =>
      rw [hbeq] at h
      exact Option.noConfusion h
    | false =>
      rw [hbeq] at h
      simp only [List.map_cons, List.mem_cons, not_or]
      exact ⟨beq_eq_false_iff_ne.mp hbeq, ih h⟩

lemma find?_key_eq_none {σ : Type} (l : List (ℕ × (String × σ))) (k : String)
    (h : ∀ p ∈ l, p.2.1 ≠ k) : l.find? (fun p => p.2.1 == k) = none := by
  induction l with
  | nil => rfl
  | cons a as ih =>
    rw [List.find?_cons,
      show (a.2.1 == k) = false from
        beq_eq_false_iff_ne.mpr (h a (List.mem_cons_self a as))]
    exact ih (fun p hp => h p (List.mem_cons_of_mem a hp))

lemma addVecScores_keys_nodup :
    ∀ (ranked : List (ℕ × (String × VecHit))) (init : List (String × ScoreAcc)),
      ((init.map Prod.fst).Nodup) →
      (((addVecScores init ranked).map Prod.fst).Nodup) := by
  intro ranked
  induction ranked with
  | nil =>
    intro init h
    exact h
  | cons p ps ih =>
    intro init h
    cases hlk : init.lookup p.2.1 with
    | some acc =>
      have hexp : addVecScores init (p :: ps)
          = addVecScores (mapSet init p.2.1 { acc with vecScore := some p.1 }) ps := by
        simp only [addVecScores, List.foldl_cons]
        congr 1
        rw [hlk]
      rw [hexp]
      exact ih _ (mapSet_keys_nodup _ h)
    | none =>
      have hexp : addVecScores init (p :: ps)
          = addVecScores
              (init ++ [(p.2.1, (⟨p.2.2.entry, none, some p.1⟩ : ScoreAcc))]) ps := by
        simp only [addVecScores, List.foldl_cons]
        congr 1
        rw [hlk]
      rw [hexp]
      apply ih
      rw [List.map_append]
      refine List.Nodup.append h (by simp) ?_
      intro a ha hb
      simp only [List.map_cons, List.map_nil, List.mem_singleton] at hb
      subst hb
      exact not_mem_keys_of_lookup_none hlk ha

lemma lookup_enumFrom_map :
    ∀ (L : List (String × FtsHit)) (n : ℕ) (k : String),
      (idxOf? k (L.map Prod.fst) = none →
        ((L.enumFrom n).map
            (fun p => (p.2.1, (⟨p.2.2.entry, some p.1, none⟩ : ScoreAcc)))).lookup k
          = none) ∧
      (∀ i, idxOf? k (L.map Prod.fst) = some i →
        ∃ hit : FtsHit, (k, hit) ∈ L ∧
          ((L.enumFrom n).map
              (fun p => (p.2.1, (⟨p.2.2.entry, some p.1, none⟩ : ScoreAcc)))).lookup k
            = some ⟨hit.entry, some (n + i), none⟩) := by
  intro L
  induction L with
  | nil =>
    intro n k
    constructor
    · intro _
      rfl
    · intro i hi
      simp [idxOf?] at hi
  | cons a as ih =>
    intro n k
    obtain ⟨a1, hit1⟩ := a
    constructor
    · intro hidx
      simp only [List.map_cons, idxOf?] at hidx
      by_cases hk : a1 = k
      · rw [if_pos hk] at hidx
        exact Option.noConfusion hidx
      · rw [if_neg hk] at hidx
        have hrec : idxOf? k (as.map Prod.fst) = none := by
          cases h2 : idxOf? k (List.map Prod.fst as) with
          | none => rfl
          | some j =>
            rw [h2] at hidx
            simp at hidx
        simp only [List.enumFrom_cons, List.map_cons]
        rw [List.lookup_cons,
          show (k == a1) = false from
            beq_eq_false_iff_ne.mpr (fun h => hk h.symm)]
        exact (ih (n + 1) k).1 hrec
    · intro i hi
      simp only [List.map_cons, idxOf?] at hi
      by_cases hk : a1 = k
      · rw [if_pos hk] at hi
        obtain rfl := Option.some.inj hi
        refine ⟨hit1, ?_, ?_⟩
        · rw [← hk]
          exact List.mem_cons_self _ _
        · simp only [List.enumFrom_cons, List.map_cons]
          rw [List.lookup_cons,
            show (k == a1) = true from beq_iff_eq.mpr hk.symm]
          simp
      · rw [if_neg hk] at hi
        cases h2 : idxOf? k (List.map Prod.fst as) with
        | none =>
          rw [h2] at hi
          simp at hi
        | some j =>
          rw [h2] at hi
          have hij : j + 1 = i := by simpa using hi
          obtain ⟨hit, hmem, hlook⟩ := (ih (n + 1) k).2 j h2
          refine ⟨hit, List.mem_cons_of_mem _ hmem, ?_⟩
          simp only [List.enumFrom_cons, List.map_cons]
          rw [List.lookup_cons,
            show (k == a1) = false from
              beq_eq_false_iff_ne.mpr (fun h => hk h.symm),
            hlook, show n + 1 + j = n + i from by omega]

lemma find?_enumFrom :
    ∀ (V : List (String × VecHit)) (n : ℕ) (k : String),
      (idxOf? k (V.map Prod.fst) = none →
        (V.enumFrom n).find? (fun p => p.2.1 == k) = none) ∧
      (∀ j, idxOf? k (V.map Prod.fst) = some j →
        ∃ hit : VecHit, (k, hit) ∈ V ∧
          (V.enumFrom n).find? (fun p => p.2.1 == k) = some (n + j, (k, hit))) := by
  intro V
  induction V with
  | nil =>
    intro n k
    constructor
    · intro _
      rfl
    · intro j hj
      simp [idxOf?] at hj
  | cons a as ih =>
    intro n k
    obtain ⟨a1, hit1⟩ := a
    constructor
    · intro hidx
      simp only [List.map_cons, idxOf?] at hidx
      by_cases hk : a1 = k
      · rw [if_pos hk] at hidx
        exact Option.noConfusion hidx
      · rw [if_neg hk] at hidx
        have hrec : idxOf? k (as.map Prod.fst) = none := by
          cases h2 : idxOf? k (List.map Prod.fst as) with
          | none => rfl
          | some j =>
            rw [h2] at hidx
            simp at hidx
        simp only [List.enumFrom_cons]
        rw [List.find?_cons,
          show ((n, (a1, hit1)).2.1 == k) = false from
            beq_eq_false_iff_ne.mpr hk]
        exact (ih (n + 1) k).1 hrec
    · intro j hj
      simp only [List.map_cons, idxOf?] at hj
      by_cases hk : a1 = k
      · rw [if_pos hk] at hj
        obtain rfl := Option.some.inj hj
        refine ⟨hit1, ?_, ?_⟩
        · rw [← hk]
          exact List.mem_cons_self _ _
        · simp only [List.enumFrom_cons]
          rw [List.find?_cons,
            show ((n, (a1, hit1)).2.1 == k) = true from beq_iff_eq.mpr hk]
          simp [hk]
      · rw [if_neg hk] at hj
        cases h2 : idxOf? k (List.map Prod.fst as) with
        | none =>
          rw [h2] at hj
          simp at hj
        | some j' =>
          rw [h2] at hj
          have hij : j' + 1 = j := by simpa using hj
          obtain ⟨hit, hmem, hfind⟩ := (ih (n + 1) k).2 j' h2
          refine ⟨hit, List.mem_cons_of_mem _ hmem, ?_⟩
          simp only [List.enumFrom_cons]
          rw [List.find?_cons,
            show ((n, (a1, hit1)).2.1 == k) = false from
              beq_eq_false_iff_ne.mpr hk,
            hfind, show n + 1 + j' = n + j from by omega]

lemma addVecScores_lookup :
    ∀ (ranked : List (ℕ × (String × VecHit))) (init : List (String × ScoreAcc))
      (k : String),
      ((ranked.map (fun p => p.2.1)).Nodup) →
      (addVecScores init ranked).lookup k
        = match ranked.find? (fun p => p.2.1 == k) with
          | some p =>
            match init.lookup k with
            | some acc => some { acc with vecScore := some p.1 }
            | none => some (⟨p.2.2.entry, none, some p.1⟩ : ScoreAcc)
          | none => init.lookup k := by
  intro ranked
  induction ranked with
  | nil =>
    intro init k _
    rfl
  | cons p ps ih =>
    intro init k hnd
    simp only [List.map_cons, List.nodup_cons] at hnd
    obtain ⟨hp, hnd'⟩ := hnd
    by_cases hk : p.2.1 = k
    · have hfind : (p :: ps).find? (fun q => q.2.1 == k) = some p := by
        rw [List.find?_cons, show (p.2.1 == k) = true from beq_iff_eq.mpr hk]
      rw [hfind]
      have hfind_ps : ps.find? (fun q => q.2.1 == k) = none := by
        apply find?_key_eq_none
        intro q hq hqk
        exact hp (List.mem_map.mpr ⟨q, hq, by rw [hqk, hk]⟩)
      cases hlk : init.lookup p.2.1 with
      | some acc =>
        have hstep : addVecScores init (p :: ps)
            = addVecScores (mapSet init p.2.1 { acc with vecScore := some p.1 }) ps := by
          simp only [addVecScores, List.foldl_cons]
          congr 1
          rw [hlk]
        rw [hstep, ih _ k hnd', hfind_ps]
        subst hk
        rw [lookup_mapSet_self, hlk]
      | none =>
        have hstep : addVecScores init (p :: ps)
            = addVecScores
                (init ++ [(p.2.1, (⟨p.2.2.entry, none, some p.1⟩ : ScoreAcc))]) ps := by
          simp only [addVecScores, List.foldl_cons]
          congr 1
          rw [hlk]
        rw [hstep, ih _ k hnd', hfind_ps]
        subst hk
        rw [lookup_append_single_self _ _ _ hlk, hlk]
    · have hfind : (p :: ps).find? (fun q => q.2.1 == k)
          = ps.find? (fun q => q.2.1 == k) := by
        rw [List.find?_cons, show (p.2.1 == k) = false from beq_eq_false_iff_ne.mpr hk]
      rw [hfind]
      cases hlk : init.lookup p.2.1 with
      | some acc =>
        have hstep : addVecScores init (p :: ps)
            = addVecScores (mapSet init p.2.1 { acc with vecScore := some p.1 }) ps := by
          simp only [addVecScores, List.foldl_cons]
          congr 1
          rw [hlk]
        rw [hstep, ih _ k hnd',
          lookup_mapSet_ne _ _ _ _ (fun h => hk h.symm)]
      | none =>
        have hstep : addVecScores init (p :: ps)
            = addVecScores
                (init ++ [(p.2.1, (⟨p.2.2.entry, none, some p.1⟩ : ScoreAcc))]) ps := by
          simp only [addVecScores, List.foldl_cons]
          congr 1
          rw [hlk]
        rw [hstep, ih _ k hnd',
          lookup_append_single_ne _ _ _ _ (fun h => hk h.symm)]

/-! ## Helper lemmas: the assembled scores map -/

lemma sortedFts_keys_nodup (dbRows : String → List FtsHit)
    (variants : List String) :
    ((sortedFtsList (collectFts dbRows variants)).map Prod.fst).Nodup := by
  have hperm := (List.mergeSort_perm (collectFts dbRows variants)
    (fun a b => a.2.rank ≤ b.2.rank)).map Prod.fst
  exact hperm.nodup_iff.mpr (collectFts_inv dbRows variants).1

lemma sortedVec_keys_nodup (embRows : List VecHit) :
    ((sortedVecList (collectVec embRows)).map Prod.fst).Nodup := by
  have hperm := (List.mergeSort_perm (collectVec embRows)
    (fun a b => b.2.similarity ≤ a.2.similarity)).map Prod.fst
  exact hperm.nodup_iff.mpr (collectVec_inv embRows).1

lemma sortedFts_id (dbRows : String → List FtsHit) (variants : List String) :
    ∀ k (hit : FtsHit), (k, hit) ∈ sortedFtsList (collectFts dbRows variants) →
      hit.entry.id = k := by
  intro k hit hp
  have hmem : (k, hit) ∈ collectFts dbRows variants :=
    (List.mergeSort_perm _ _).mem_iff.mp hp
  have hlk := lookup_some_of_mem_of_nodup (collectFts_inv dbRows variants).1 hmem
  exact (((collectFts_inv dbRows variants).2 k).1 hit hlk).2.1

lemma sortedVec_id (embRows : List VecHit) :
    ∀ k (hit : VecHit), (k, hit) ∈ sortedVecList (collectVec embRows) →
      hit.entry.id = k := by
  intro k hit hp
  have hmem : (k, hit) ∈ collectVec embRows :=
    (List.mergeSort_perm _ _).mem_iff.mp hp
  have hlk := lookup_some_of_mem_of_nodup (collectVec_inv embRows).1 hmem
  exact ((collectVec_inv embRows).2 k hit hlk).2.2

lemma mem_variantRows_sub (dbRows : String → List FtsHit) (qv : String)
    (r : FtsHit) (h : r ∈ variantRows dbRows qv) :
    r ∈ dbRows (buildSafeQuery qv) := by
  unfold variantRows at h
  by_cases hbq : buildSafeQuery qv = ""
  · rw [if_pos hbq] at h
    simp at h
  · rwa [if_neg hbq] at h

lemma sortedFts_provenance (dbRows : String → List FtsHit)
    (variants : List String) :
    ∀ k (hit : FtsHit), (k, hit) ∈ sortedFtsList (collectFts dbRows variants) →
      ∃ qv ∈ variants, hit ∈ variantRows dbRows qv := by
  intro k hit hp
  have hmem : (k, hit) ∈ collectFts dbRows variants :=
    (List.mergeSort_perm _ _).mem_iff.mp hp
  have hlk := lookup_some_of_mem_of_nodup (collectFts_inv dbRows variants).1 hmem
  have h1 := (((collectFts_inv dbRows variants).2 k).1 hit hlk).1
  rw [List.mem_flatten] at h1
  obtain ⟨l, hl, hhit⟩ := h1
  rw [List.mem_map] at hl
  obtain ⟨qv, hqv, rfl⟩ := hl
  exact ⟨qv, hqv, hhit⟩

lemma sortedVec_provenance (embRows : List VecHit) :
    ∀ k (hit : VecHit), (k, hit) ∈ sortedVecList (collectVec embRows) →
      hit ∈ embRows := by
  intro k hit hp
  have hmem : (k, hit) ∈ collectVec embRows :=
    (List.mergeSort_perm _ _).mem_iff.mp hp
  have hlk := lookup_some_of_mem_of_nodup (collectVec_inv embRows).1 hmem
  exact ((collectVec_inv embRows).2 k hit hlk).1

lemma ftsStage_eq (dbRows : String → List FtsHit) (variants : List String) :
    addFtsScores []
        ((sortedFtsList (collectFts dbRows variants)).enumFrom 1)
      = ((sortedFtsList (collectFts dbRows variants)).enumFrom 1).map
          (fun p => (p.2.1, (⟨p.2.2.entry, some p.1, none⟩ : ScoreAcc))) := by
  have h := addFtsScores_fresh
    ((sortedFtsList (collectFts dbRows variants)).enumFrom 1) []
    (by intro p _; simp)
    (by rw [enumFrom_keys]; exact sortedFts_keys_nodup dbRows variants)
  simpa using h

lemma ftsStage_keys (dbRows : String → List FtsHit) (variants : List String) :
    (addFtsScores []
        ((sortedFtsList (collectFts dbRows variants)).enumFrom 1)).map Prod.fst
      = (sortedFtsList (collectFts dbRows variants)).map Prod.fst := by
  rw [ftsStage_eq, List.map_map]
  exact enumFrom_keys _ 1

lemma scoresOf_keys_nodup (dbRows : String → List FtsHit)
    (variants : List String) (embRows : List VecHit) :
    ((scoresOf dbRows variants embRows).map Prod.fst).Nodup := by
  apply addVecScores_keys_nodup
  rw [ftsStage_keys]
  exact sortedFts_keys_nodup dbRows variants

/-- Characterization of the assembled `scores` map: a stored entry's
`ftsRank` and `vecScore` are exactly the 1-based positions of its id in
the lexical-sorted and similarity-sorted candidate lists, and its entry
comes from one of the two candidate lists. -/
lemma scoresOf_char (dbRows : String → List FtsHit) (variants : List String)
    (embRows : List VecHit) (k : String) (acc : ScoreAcc)
    (hacc : (scoresOf dbRows variants embRows).lookup k = some acc) :
    acc.ftsRank
        = posOf ((sortedFtsList (collectFts dbRows variants)).map Prod.fst) k ∧
    acc.vecScore
        = posOf ((sortedVecList (collectVec embRows)).map Prod.fst) k ∧
    ((∃ hit : FtsHit, (k, hit) ∈ sortedFtsList (collectFts dbRows variants) ∧
        acc.entry = hit.entry) ∨
     (∃ hit : VecHit, (k, hit) ∈ sortedVecList (collectVec embRows) ∧
        acc.entry = hit.entry)) := by
  have hVnd : (((sortedVecList (collectVec embRows)).enumFrom 1).map
      (fun p => p.2.1)).Nodup := by
    rw [enumFrom_keys]
    exact sortedVec_keys_nodup embRows
  have hchar := addVecScores_lookup
    ((sortedVecList (collectVec embRows)).enumFrom 1)
    (addFtsScores [] ((sortedFtsList (collectFts dbRows variants)).enumFrom 1))
    k hVnd
  unfold scoresOf at hacc
  rw [hchar] at hacc
  cases hvidx : idxOf? k ((sortedVecList (collectVec embRows)).map Prod.fst) with
  | none =>
    have hfind := (find?_enumFrom (sortedVecList (collectVec embRows)) 1 k).1 hvidx
    rw [hfind, ftsStage_eq] at hacc
    cases hlidx : idxOf? k
        ((sortedFtsList (collectFts dbRows variants)).map Prod.fst) with
    | none =>
      rw [(lookup_enumFrom_map (sortedFtsList (collectFts dbRows variants)) 1 k).1
        hlidx] at hacc
      exact Option.noConfusion hacc
    | some i =>
      obtain ⟨hit, hmem, hlook⟩ :=
        (lookup_enumFrom_map (sortedFtsList (collectFts dbRows variants)) 1 k).2
          i hlidx
      rw [hlook] at hacc
      obtain rfl := Option.some.inj hacc
      refine ⟨?_, ?_, Or.inl ⟨hit, hmem, rfl⟩⟩
      · simp [posOf, hlidx, Nat.add_comm]
      · simp [posOf, hvidx]
  | some j =>
    obtain ⟨vhit, hvmem, hvfind⟩ :=
      (find?_enumFrom (sortedVecList (collectVec embRows)) 1 k).2 j hvidx
    rw [hvfind, ftsStage_eq] at hacc
    cases hlidx : idxOf? k
        ((sortedFtsList (collectFts dbRows variants)).map Prod.fst) with
    | none =>
      rw [(lookup_enumFrom_map (sortedFtsList (collectFts dbRows variants)) 1 k).1
        hlidx] at hacc
      have hacc' : some (⟨vhit.entry, none, some (1 + j)⟩ : ScoreAcc) = some acc :=
        hacc
      obtain rfl := Option.some.inj hacc'
      refine ⟨?_, ?_, Or.inr ⟨vhit, hvmem, rfl⟩⟩
      · simp [posOf, hlidx]
      · simp [posOf, hvidx, Nat.add_comm]
    | some i =>
      obtain ⟨hit, hmem, hlook⟩ :=
        (lookup_enumFrom_map (sortedFtsList (collectFts dbRows variants)) 1 k).2
          i hlidx
      rw [hlook] at hacc
      have hacc' : some (⟨hit.entry, some (1 + i), some (1 + j)⟩ : ScoreAcc)
          = some acc := hacc
      obtain rfl := Option.some.inj hacc'
      refine ⟨?_, ?_, Or.inl ⟨hit, hmem, rfl⟩⟩
      · simp [posOf, hlidx, Nat.add_comm]
      · simp [posOf, hvidx, Nat.add_comm]

lemma sortFinal_perm (l : List (MemoryEntry × ℚ)) : (sortFinal l).Perm l :=
  List.mergeSort_perm l _

lemma sortFinal_sorted (l : List (MemoryEntry × ℚ)) :
    (sortFinal l).Pairwise (fun a b => b.2 ≤ a.2) := by
  have htrans : ∀ (a b c : MemoryEntry × ℚ),
      (decide (b.2 ≤ a.2)) = true → (decide (c.2 ≤ b.2)) = true →
      (decide (c.2 ≤ a.2)) = true := by
    intro a b c hab hbc
    simp only [decide_eq_true_eq] at *
    exact le_trans hbc hab
  have htotal : ∀ (a b : MemoryEntry × ℚ),
      ((decide (b.2 ≤ a.2)) || (decide (a.2 ≤ b.2))) = true := by
    intro a b
    simp only [Bool.or_eq_true, decide_eq_true_eq]
    exact le_total b.2 a.2
  have h := @List.sorted_mergeSort (MemoryEntry × ℚ)
    (fun a b : MemoryEntry × ℚ => decide (b.2 ≤ a.2)) htrans htotal l
  exact h.imp (fun hab => by simpa using hab)

lemma freshnessOf_eq_spec (e : Option ℤ) (now : ℤ) (h : e ≠ some 0) :
    freshnessOf e now = specFreshness e now := by
  cases e with
  | none => rfl
  | some x =>
    have hx : x ≠ 0 := fun h0 => h (by rw [h0])
    simp [freshnessOf, specFreshness, hx]

/-! ## C1 -/

/-- C1: in a hybrid search (under the expiry filter's guarantee that no
candidate carries the literal expiry 0, which the SQL `expires_at > now`
clause enforces for any non-negative clock), every returned candidate's
score is `0.7·rrf + 0.2·freshness + 0.1·confidence`, where rrf sums
`1/(60+rank)` over the candidate's 1-based position in the lexical-sorted
order (best/lowest native rank kept across query variants) and its
1-based position in the similarity-sorted order, and freshness is
`clamp((expiresAt − now)/14 d, 0, 1)` or 1 for a null expiry; the result
list is sorted by this composite score descending and truncated to the
requested limit; and a candidate ranked 1st in both lists scores
`2/(60+1)·0.7 + freshness·0.2 + confidence·0.1`. -/
theorem hybrid_composite_scoring
    (dbRows : String → List FtsHit) (embRows : List VecHit) (query : String)
    (useHyde : Bool) (hydeOut : HydeOutcome) (nowSec : ℤ) (limit : ℕ)
    (hdb : ∀ qv : String, ∀ r ∈ dbRows qv, r.entry.expiresAt ≠ some 0)
    (hemb : ∀ r ∈ embRows, r.entry.expiresAt ≠ some 0) :
    (∀ (k : String) (hit : FtsHit),
      (collectFts dbRows (queryVariantsOf query useHyde hydeOut)).lookup k
          = some hit →
      hit.entry.id = k ∧
      (∃ qv ∈ queryVariantsOf query useHyde hydeOut,
        hit ∈ variantRows dbRows qv) ∧
      (∀ qv ∈ queryVariantsOf query useHyde hydeOut,
        ∀ r ∈ variantRows dbRows qv, r.entry.id = k → hit.rank ≤ r.rank)) ∧
    (hybridSearch dbRows embRows query useHyde hydeOut nowSec limit).Pairwise
      (fun a b => b.2 ≤ a.2) ∧
    (hybridSearch dbRows embRows query useHyde hydeOut nowSec limit).length
        ≤ limit ∧
    (sortFinal (finalScores
        (scoresOf dbRows (queryVariantsOf query useHyde hydeOut) embRows)
        nowSec)).Perm
      (finalScores
        (scoresOf dbRows (queryVariantsOf query useHyde hydeOut) embRows)
        nowSec) ∧
    hybridSearch dbRows embRows query useHyde hydeOut nowSec limit
      = (sortFinal (finalScores
          (scoresOf dbRows (queryVariantsOf query useHyde hydeOut) embRows)
          nowSec)).take limit ∧
    (∀ p ∈ hybridSearch dbRows embRows query useHyde hydeOut nowSec limit,
      p.2 = 0.7 * (rrfTerm (posOf
              ((sortedFtsList (collectFts dbRows
                  (queryVariantsOf query useHyde hydeOut))).map Prod.fst)
              p.1.id)
            + rrfTerm (posOf
              ((sortedVecList (collectVec embRows)).map Prod.fst) p.1.id))
          + 0.2 * specFreshness p.1.expiresAt nowSec + 0.1 * p.1.confidence) ∧
    (∀ p ∈ hybridSearch dbRows embRows query useHyde hydeOut nowSec limit,
      posOf ((sortedFtsList (collectFts dbRows
          (queryVariantsOf query useHyde hydeOut))).map Prod.fst) p.1.id
        = some 1 →
      posOf ((sortedVecList (collectVec embRows)).map Prod.fst) p.1.id
        = some 1 →
      p.2 = 2 / (60 + 1) * 0.7 + specFreshness p.1.expiresAt nowSec * 0.2
          + p.1.confidence * 0.1) := by
  have hbest : ∀ (k : String) (hit : FtsHit),
      (collectFts dbRows (queryVariantsOf query useHyde hydeOut)).lookup k
          = some hit →
      hit.entry.id = k ∧
      (∃ qv ∈ queryVariantsOf query useHyde hydeOut,
        hit ∈ variantRows dbRows qv) ∧
      (∀ qv ∈ queryVariantsOf query useHyde hydeOut,
        ∀ r ∈ variantRows dbRows qv, r.entry.id = k → hit.rank ≤ r.rank) := by
    intro k hit hlk
    obtain ⟨hmem, hid, hmin⟩ :=
      ((collectFts_inv dbRows (queryVariantsOf query useHyde hydeOut)).2 k).1
        hit hlk
    refine ⟨hid, ?_, ?_⟩
    · rw [List.mem_flatten] at hmem
      obtain ⟨l, hl, hhit⟩ := hmem
      rw [List.mem_map] at hl
      obtain ⟨qv, hqv, rfl⟩ := hl
      exact ⟨qv, hqv, hhit⟩
    · intro qv hqv r hr hrid
      exact hmin r
        (List.mem_flatten.mpr
          ⟨variantRows dbRows qv,
            List.mem_map_of_mem (variantRows dbRows) hqv, hr⟩) hrid
  have hformula : ∀ p ∈ hybridSearch dbRows embRows query useHyde hydeOut
      nowSec limit,
      p.2 = 0.7 * (rrfTerm (posOf
              ((sortedFtsList (collectFts dbRows
                  (queryVariantsOf query useHyde hydeOut))).map Prod.fst)
              p.1.id)
            + rrfTerm (posOf
              ((sortedVecList (collectVec embRows)).map Prod.fst) p.1.id))
          + 0.2 * specFreshness p.1.expiresAt nowSec + 0.1 * p.1.confidence := by
    intro p hp
    have hp1 : p ∈ sortFinal (finalScores
        (scoresOf dbRows (queryVariantsOf query useHyde hydeOut) embRows)
        nowSec) := List.mem_of_mem_take hp
    have hp2 : p ∈ finalScores
        (scoresOf dbRows (queryVariantsOf query useHyde hydeOut) embRows)
        nowSec := (sortFinal_perm _).mem_iff.mp hp1
    unfold finalScores at hp2
    obtain ⟨⟨k, acc⟩, hmem, heq⟩ := List.mem_map.mp hp2
    have hlkacc := lookup_some_of_mem_of_nodup
      (scoresOf_keys_nodup dbRows (queryVariantsOf query useHyde hydeOut)
        embRows) hmem
    obtain ⟨hfr, hvr, hprov⟩ := scoresOf_char dbRows
      (queryVariantsOf query useHyde hydeOut) embRows k acc hlkacc
    have hid : acc.entry.id = k := by
      rcases hprov with ⟨hit, hm, hent⟩ | ⟨hit, hm, hent⟩
      · rw [hent]
        exact sortedFts_id dbRows (queryVariantsOf query useHyde hydeOut) k
          hit hm
      · rw [hent]
        exact sortedVec_id embRows k hit hm
    have hne : acc.entry.expiresAt ≠ some 0 := by
      rcases hprov with ⟨hit, hm, hent⟩ | ⟨hit, hm, hent⟩
      · obtain ⟨qv, _, hrow⟩ := sortedFts_provenance dbRows
          (queryVariantsOf query useHyde hydeOut) k hit hm
        rw [hent]
        exact hdb (buildSafeQuery qv) hit (mem_variantRows_sub dbRows qv hit hrow)
      · rw [hent]
        exact hemb hit (sortedVec_provenance embRows k hit hm)
    subst heq
    dsimp only
    rw [hid, ← hfr, ← hvr,
      show (match acc.ftsRank with
            | some r => 1 / (60 + (r : ℚ))
            | none => 0) = rrfTerm acc.ftsRank from by cases acc.ftsRank <;> rfl,
      show (match acc.vecScore with
            | some r => 1 / (60 + (r : ℚ))
            | none => 0) = rrfTerm acc.vecScore from by cases acc.vecScore <;> rfl,
      freshnessOf_eq_spec _ _ hne]
    ring
  refine ⟨hbest, ?_, ?_, sortFinal_perm _, rfl, hformula, ?_⟩
  · exact List.Pairwise.sublist (List.take_sublist _ _) (sortFinal_sorted _)
  · exact List.length_take_le _ _
  · intro p hp h1 h2
    rw [hformula p hp, h1, h2]
    show (0.7 : ℚ) * (1 / (60 + (1 : ℕ)) + 1 / (60 + (1 : ℕ)))
        + 0.2 * specFreshness p.1.expiresAt nowSec + 0.1 * p.1.confidence = _
    push_cast
    ring

/-- C1 witness: a concrete hybrid search over one lexical hit and one
vector hit is sorted descending and respects the limit. -/
theorem hybrid_composite_scoring_witness :
    (hybridSearch hybridDbSingle vecSingle "hello" false .err 5 6).Pairwise
      (fun a b => b.2 ≤ a.2) ∧
    (hybridSearch hybridDbSingle vecSingle "hello" false .err 5 6).length ≤ 6 := by
  have h := hybrid_composite_scoring hybridDbSingle vecSingle "hello" false .err
    5 6
    (by
      intro qv r hr
      simp only [hybridDbSingle, List.mem_singleton] at hr
      subst hr
      decide)
    (by
      intro r hr
      simp only [vecSingle, List.mem_singleton] at hr
      subst hr
      decide)
  exact ⟨h.2.1, h.2.2.1⟩
